import Mathlib

/-!
Shallow embedding of the agent-skills-guard security scanner and CLI
orchestrator (Rust sources under `src-tauri/src`), together with proofs
checking the natural-language specification against the code.

Modelling conventions:
* Rust machine integers (`i32`, `usize`) become `Int`/`Nat`; `f32`
  arithmetic on the small count/weight values used here becomes exact
  rational (`ℚ`) arithmetic, with the float literals `0.5`, `0.1`, `0.2`,
  `0.6`, `0.02`, `0.05` read as the exact rationals they denote;
  ratio comparisons `a / n < c` are written cross-multiplied over `Nat`.
* Regexes are data: a rule's compiled pattern is embedded as an opaque
  line predicate `String → Bool`, and the whole rule table is a parameter
  (the table itself lives in a source file that is not part of the
  scanner sources modelled here; its shape follows the spec's data model).
* File contents are byte lists (`List Nat`); decoded text is a `String`.
* The scanner's and orchestrator's `locale` parameters are dropped: the
  localized message templates live outside the modelled sources, so
  user-facing texts (hard-trigger messages, recommendations) are modelled
  as fixed locale-independent strings following the spec's wording.
* The persistence layer is a list store: `database.rs::save_plugin` is
  `INSERT OR REPLACE` keyed by the plugin `id`; CLI invocations and JSON
  parsing are outside the model, their already-parsed outputs appearing
  as function arguments, and `parse_datetime` and the marketplace-URL map
  are abstract parameters.
-/

/-- Severity of a detection rule (`security/rules.rs`, used by
`scanner.rs::map_severity`). -/
inductive Severity
  | critical
  | high
  | medium
  | low
deriving DecidableEq, Repr

/-- Internal category of a detection rule (`security/rules.rs`, used by
`scanner.rs::map_category`). -/
inductive Category
  | destructive
  | remoteExec
  | cmdInjection
  | network
  | privilege
  | secrets
  | persistence
  | sensitiveFileAccess
deriving DecidableEq, Repr

/-- `scanner.rs::MatchResult`: one rule match on one line of one file. -/
structure MatchResult where
  rule_id : String
  rule_name : String
  severity : Severity
  category : Category
  weight : Int
  description : String
  hard_trigger : Bool
  line_number : Nat
  code_snippet : String
  file_path : String
deriving DecidableEq, Repr

/-- Insertion into a duplicate-free list, keeping first-occurrence order:
the model of `HashSet::insert` (`rule_hits` entry `.1.insert(file_path)` in
`scanner.rs::calculate_score_weighted`). -/
def insertNew (files : List String) (f : String) : List String :=
  if f ∈ files then files else files ++ [f]

/-- First-occurrence de-duplication of a list (fold of `insertNew`):
the set of values inserted into a `HashSet`, as an ordered list. -/
def distinctList (l : List String) : List String :=
  l.foldl insertNew []

/-- One `rule_hits` update of `scanner.rs::calculate_score_weighted`:
`entry.0 = matched.weight; entry.1.insert(matched.file_path)`, on an
association list keyed by rule id. -/
def addHit (acc : List (String × Int × List String)) (m : MatchResult) :
    List (String × Int × List String) :=
  match acc with
  | [] => [(m.rule_id, m.weight, [m.file_path])]
  | (rid, w, fs) :: rest =>
      if rid = m.rule_id then (rid, m.weight, insertNew fs m.file_path) :: rest
      else (rid, w, fs) :: addHit rest m

/-- The `rule_hits` map of `scanner.rs::calculate_score_weighted`: matches
with non-positive weight are skipped (`if matched.weight <= 0 { continue }`);
the rest are grouped by `_rule_id`, remembering the weight and the set of
distinct file paths. -/
def rule_hits (ms : List MatchResult) : List (String × Int × List String) :=
  ms.foldl (fun acc m => if m.weight ≤ 0 then acc else addHit acc m) []

/-- The per-rule deduction `(weight as f32) * (1.0 - DECAY.powi(count)) /
(1.0 - DECAY)` with `DECAY = 0.5`, in exact arithmetic. -/
def decayDeduction (w : Int) (count : Nat) : ℚ :=
  (w : ℚ) * (1 - (1 / 2 : ℚ) ^ count) / (1 - 1 / 2)

/-- Rust `f32::round`: round half away from zero. -/
def roundHalfAway (q : ℚ) : Int :=
  if 0 ≤ q then ⌊q + 1 / 2⌋ else -⌊-q + 1 / 2⌋

/-- The `for (_rule_id, (weight, files)) in rule_hits` loop of
`scanner.rs::calculate_score_weighted`: total deduction subtracted from the
base score.  The `if count <= 0 { continue }` guard of the source is kept
verbatim. -/
def dedSum (ms : List MatchResult) : ℚ :=
  (rule_hits ms).foldl
    (fun s e => if e.2.2.length = 0 then s else s + decayDeduction e.2.1 e.2.2.length) 0

/-- `scanner.rs::calculate_score_weighted`: 100 minus the summed per-rule
decay deductions, clamped at 0 and rounded (`base_score.max(0.0).round()`). -/
def calculate_score_weighted (ms : List MatchResult) : Int :=
  roundHalfAway (max 0 (100 - dedSum ms))

/-- The spec's description of the scorer, written from its words alone:
rule ids of the positive-weight matches. -/
def specRuleIds (ms : List MatchResult) : List String :=
  distinctList ((ms.filter (fun m => 0 < m.weight)).map (·.rule_id))

/-- Spec-side `n`: the number of distinct file paths among a rule's matches. -/
def specDistinctFiles (ms : List MatchResult) (rid : String) : Nat :=
  (distinctList ((ms.filter (fun m => m.rule_id = rid)).map (·.file_path))).length

/-- Spec-side `w`: the weight of the rule `rid` (the weight carried by its
matches; the claim presumes one weight per rule). -/
def specWeight (ms : List MatchResult) (rid : String) : Int :=
  match ms.filter (fun m => m.rule_id = rid) with
  | [] => 0
  | m :: _ => m.weight

/-- Spec-side total: `max(0, round(100 - Σ deductions))`, the deduction of a
rule with weight `w` firing in `n` distinct files being
`w * (1 - 0.5^n) / (1 - 0.5)`. -/
def spec_security_score (ms : List MatchResult) : Int :=
  let ded : ℚ := ((specRuleIds ms).map
    (fun rid => decayDeduction (specWeight ms rid) (specDistinctFiles ms rid))).sum
  max 0 (roundHalfAway (100 - ded))

/-- The weight of every match of a given rule id is the same: true of all
real match lists, since a `MatchResult`'s weight is copied from its rule. -/
def weightConsistent (ms : List MatchResult) : Prop :=
  ∀ m ∈ ms, ∀ m' ∈ ms, m.rule_id = m'.rule_id → m.weight = m'.weight

instance (ms : List MatchResult) : Decidable (weightConsistent ms) := by
  unfold weightConsistent; infer_instance

/-- The positive-weight matches: the ones `calculate_score_weighted` does
not skip. -/
def posFilter (ms : List MatchResult) : List MatchResult :=
  ms.filter (fun m => 0 < m.weight)

/-- The association-list value `rule_hits` ends up holding for rule `rid`:
the last seen weight, and the distinct file paths, of the positive-weight
matches with that rule id. -/
def hitsFun (l : List MatchResult) (rid : String) : Int × List String :=
  let rms := l.filter (fun m => m.rule_id = rid)
  (match rms.getLast? with
   | some m => m.weight
   | none => 0,
   distinctList (rms.map (·.file_path)))

theorem mem_insertNew {l : List String} {x y : String} :
    y ∈ insertNew l x ↔ y ∈ l ∨ y = x := by
  unfold insertNew
  split
  · next h => constructor
              · exact fun hy => Or.inl hy
              · rintro (hy | rfl)
                · exact hy
                · exact h
  · simp [List.mem_append]

theorem insertNew_nodup {l : List String} (h : l.Nodup) (x : String) :
    (insertNew l x).Nodup := by
  unfold insertNew
  split
  · exact h
  · next hx => simpa [List.nodup_append] using ⟨h, hx⟩

theorem distinctList_nodup (l : List String) : (distinctList l).Nodup := by
  suffices h : ∀ acc : List String, acc.Nodup → (l.foldl insertNew acc).Nodup by
    exact h [] List.nodup_nil
  induction l with
  | nil => exact fun acc h => h
  | cons x xs ih => exact fun acc h => ih _ (insertNew_nodup h x)

theorem mem_distinctList {l : List String} {x : String} :
    x ∈ distinctList l ↔ x ∈ l := by
  suffices h : ∀ acc : List String, x ∈ l.foldl insertNew acc ↔ x ∈ acc ∨ x ∈ l by
    simpa using h []
  induction l with
  | nil => simp
  | cons y ys ih =>
      intro acc
      rw [List.foldl_cons, ih, mem_insertNew]
      constructor
      · rintro ((h | rfl) | h) <;> simp_all
      · rintro (h | h)
        · exact Or.inl (Or.inl h)
        · rcases List.mem_cons.mp h with rfl | h
          · exact Or.inl (Or.inr rfl)
          · exact Or.inr h

theorem distinctList_concat (l : List String) (x : String) :
    distinctList (l ++ [x]) = insertNew (distinctList l) x := by
  simp [distinctList, List.foldl_append]

theorem addHit_map (keys : List String) (f : String → Int × List String)
    (m : MatchResult) (hnd : keys.Nodup) :
    addHit (keys.map (fun rid => (rid, f rid))) m =
      if m.rule_id ∈ keys then
        keys.map (fun rid =>
          (rid, if rid = m.rule_id then (m.weight, insertNew (f rid).2 m.file_path)
                else f rid))
      else keys.map (fun rid => (rid, f rid)) ++ [(m.rule_id, m.weight, [m.file_path])] := by
  induction keys with
  | nil => simp [addHit]
  | cons k ks ih =>
      obtain ⟨hk, hnd'⟩ := List.nodup_cons.mp hnd
      rcases hfk : f k with ⟨w, fs⟩
      by_cases hkm : k = m.rule_id
      · subst hkm
        rw [if_pos (List.mem_cons_self _ _)]
        simp only [List.map_cons, hfk, addHit, if_pos rfl]
        refine congrArg₂ List.cons ?_ ?_
        · simp [hfk]
        · refine List.map_congr_left (fun rid hrid => ?_)
          have hne : rid ≠ m.rule_id := fun h => hk (h ▸ hrid)
          simp [hne]
      · simp only [List.map_cons, hfk, addHit, if_neg hkm]
        rw [ih hnd']
        by_cases hm : m.rule_id ∈ ks
        · have hmem : m.rule_id ∈ k :: ks := List.mem_cons_of_mem _ hm
          rw [if_pos hm, if_pos hmem]
        · have hmem : m.rule_id ∉ k :: ks := by
            intro h
            rcases List.mem_cons.mp h with h' | h'
            · exact hkm h'.symm
            · exact hm h'
          rw [if_neg hm, if_neg hmem]
          simp [hfk]

theorem hitsFun_append_ne (l : List MatchResult) (m : MatchResult) (rid : String)
    (h : ¬ m.rule_id = rid) : hitsFun (l ++ [m]) rid = hitsFun l rid := by
  unfold hitsFun
  have : (l ++ [m]).filter (fun x => x.rule_id = rid) = l.filter (fun x => x.rule_id = rid) := by
    rw [List.filter_append]
    simp [List.filter, h]
  rw [this]

theorem hitsFun_append_eq (l : List MatchResult) (m : MatchResult) :
    hitsFun (l ++ [m]) m.rule_id =
      (m.weight, insertNew (hitsFun l m.rule_id).2 m.file_path) := by
  unfold hitsFun
  have : (l ++ [m]).filter (fun x => x.rule_id = m.rule_id)
      = l.filter (fun x => x.rule_id = m.rule_id) ++ [m] := by
    rw [List.filter_append]
    simp [List.filter]
  rw [this]
  simp [List.getLast?_concat, distinctList_concat]

theorem hitsFun_not_fired (l : List MatchResult) (m : MatchResult)
    (h : m.rule_id ∉ l.map (·.rule_id)) :
    hitsFun (l ++ [m]) m.rule_id = (m.weight, [m.file_path]) := by
  rw [hitsFun_append_eq]
  have hnil : l.filter (fun x => x.rule_id = m.rule_id) = [] := by
    rw [List.filter_eq_nil_iff]
    intro a ha hda
    exact h (List.mem_map.mpr ⟨a, ha, of_decide_eq_true hda⟩)
  unfold hitsFun
  rw [hnil]
  simp [distinctList, insertNew]

theorem foldl_addHit_char (l : List MatchResult) :
    l.foldl addHit [] =
      (distinctList (l.map (·.rule_id))).map (fun rid => (rid, hitsFun l rid)) := by
  induction l using List.reverseRecOn with
  | nil => simp [distinctList]
  | append_singleton l m ih =>
      rw [List.foldl_append, List.foldl_cons, List.foldl_nil, ih,
        addHit_map _ _ _ (distinctList_nodup _)]
      rw [List.map_append]
      simp only [List.map_cons, List.map_nil]
      rw [distinctList_concat]
      by_cases hm : m.rule_id ∈ distinctList (l.map (·.rule_id))
      · rw [if_pos hm]
        have hins : insertNew (distinctList (l.map (·.rule_id))) m.rule_id
            = distinctList (l.map (·.rule_id)) := by
          unfold insertNew
          rw [if_pos hm]
        rw [hins]
        refine List.map_congr_left (fun rid hrid => ?_)
        by_cases hr : rid = m.rule_id
        · subst hr
          rw [if_pos rfl, hitsFun_append_eq]
        · rw [if_neg hr, hitsFun_append_ne _ _ _ (fun h => hr h.symm)]
      · rw [if_neg hm]
        have hins : insertNew (distinctList (l.map (·.rule_id))) m.rule_id
            = distinctList (l.map (·.rule_id)) ++ [m.rule_id] := by
          unfold insertNew
          rw [if_neg hm]
        rw [hins, List.map_append]
        refine congrArg₂ List.append ?_ ?_
        · refine List.map_congr_left (fun rid hrid => ?_)
          have hr : ¬ m.rule_id = rid := fun h => hm (h ▸ hrid)
          rw [hitsFun_append_ne _ _ _ hr]
        · have hnot : m.rule_id ∉ l.map (·.rule_id) := fun h => hm (mem_distinctList.mpr h)
          simp [hitsFun_not_fired l m hnot]

theorem rule_hits_eq_pos (ms : List MatchResult) :
    rule_hits ms = (posFilter ms).foldl addHit [] := by
  suffices h : ∀ acc, ms.foldl (fun acc m => if m.weight ≤ 0 then acc else addHit acc m) acc
      = (posFilter ms).foldl addHit acc from h []
  induction ms with
  | nil => exact fun acc => rfl
  | cons m ms ih =>
      intro acc
      unfold posFilter
      rw [List.foldl_cons, List.filter_cons]
      by_cases hw : m.weight ≤ 0
      · rw [if_pos hw]
        have hp : (decide (0 < m.weight)) = false := by
          simpa using hw
        rw [hp]
        simp only [Bool.false_eq_true, if_false]
        exact ih acc
      · rw [if_neg hw]
        have hp : (decide (0 < m.weight)) = true := by
          simpa using Int.not_le.mp hw
        rw [hp]
        simp only [if_true]
        rw [List.foldl_cons]
        exact ih (addHit acc m)

theorem rule_hits_char (ms : List MatchResult) :
    rule_hits ms =
      (specRuleIds ms).map (fun rid => (rid, hitsFun (posFilter ms) rid)) := by
  rw [rule_hits_eq_pos, foldl_addHit_char]
  rfl

theorem foldl_ded_sum (es : List (String × Int × List String)) (s : ℚ)
    (h : ∀ e ∈ es, e.2.2.length ≠ 0) :
    es.foldl (fun s e => if e.2.2.length = 0 then s else s + decayDeduction e.2.1 e.2.2.length) s
      = s + (es.map (fun e => decayDeduction e.2.1 e.2.2.length)).sum := by
  induction es generalizing s with
  | nil => simp
  | cons e es ih =>
      rw [List.foldl_cons, if_neg (h e (by simp)), List.map_cons, List.sum_cons,
        ih _ (fun x hx => h x (by simp [hx]))]
      ring

theorem hitsFun_fired (l : List MatchResult) (rid : String)
    (h : rid ∈ l.map (·.rule_id)) :
    (∃ m ∈ l, (hitsFun l rid).1 = m.weight ∧ m.rule_id = rid) ∧
      (hitsFun l rid).2.length ≠ 0 := by
  obtain ⟨x, hx, hxr⟩ := List.mem_map.mp h
  have hxf : x ∈ l.filter (fun m => m.rule_id = rid) :=
    List.mem_filter.mpr ⟨hx, decide_eq_true hxr⟩
  have hne : l.filter (fun m => m.rule_id = rid) ≠ [] := List.ne_nil_of_mem hxf
  constructor
  · unfold hitsFun
    rcases hlast : (l.filter (fun m => m.rule_id = rid)).getLast? with _ | ⟨z⟩
    · exact absurd (List.getLast?_eq_none_iff.mp hlast) hne
    · have hz : z ∈ l.filter (fun m => m.rule_id = rid) := by
        have hzo : z ∈ (l.filter (fun m => m.rule_id = rid)).getLast? := by
          rw [hlast]; rfl
        obtain ⟨hne2, rfl⟩ := List.mem_getLast?_eq_getLast hzo
        exact List.getLast_mem hne2
      obtain ⟨hzl, hzr⟩ := List.mem_filter.mp hz
      exact ⟨z, hzl, by simp [hlast], of_decide_eq_true hzr⟩
  · unfold hitsFun
    have hpath : x.file_path ∈ (l.filter (fun m => m.rule_id = rid)).map (·.file_path) :=
      List.mem_map_of_mem _ hxf
    have : x.file_path ∈ distinctList ((l.filter (fun m => m.rule_id = rid)).map (·.file_path)) :=
      mem_distinctList.mpr hpath
    simp only
    exact fun hlen => List.ne_nil_of_mem this (List.length_eq_zero.mp hlen)

theorem filter_rid_eq_pos (ms : List MatchResult) (rid : String)
    (hcons : weightConsistent ms)
    (hfired : rid ∈ (posFilter ms).map (·.rule_id)) :
    ms.filter (fun m => m.rule_id = rid) = (posFilter ms).filter (fun m => m.rule_id = rid) := by
  obtain ⟨x, hxpos, hxr⟩ := List.mem_map.mp hfired
  obtain ⟨hxms, hxw⟩ := List.mem_filter.mp hxpos
  have hxw' : 0 < x.weight := of_decide_eq_true hxw
  unfold posFilter
  rw [List.filter_filter]
  refine (List.filter_congr (fun m hm => ?_)).symm
  by_cases hr : m.rule_id = rid
  · have hw : 0 < m.weight := by
      rw [hcons m hm x hxms (by rw [hr, hxr])]
      exact hxw'
    simp [hr, hw]
  · simp [hr]

theorem decayDeduction_nonneg (w : Int) (hw : 0 < w) (n : Nat) :
    0 ≤ decayDeduction w n := by
  unfold decayDeduction
  have h1 : (1 / 2 : ℚ) ^ n ≤ 1 := pow_le_one₀ (by norm_num) (by norm_num)
  have h2 : (0 : ℚ) ≤ (w : ℚ) := by exact_mod_cast hw.le
  have h3 : (0 : ℚ) ≤ 1 - (1 / 2 : ℚ) ^ n := by linarith
  have h4 : (0 : ℚ) ≤ 1 - 1 / 2 := by norm_num
  exact div_nonneg (mul_nonneg h2 h3) h4

theorem dedSum_eq (ms : List MatchResult) :
    dedSum ms = ((specRuleIds ms).map
      (fun rid => decayDeduction (hitsFun (posFilter ms) rid).1
        (hitsFun (posFilter ms) rid).2.length)).sum := by
  unfold dedSum
  rw [rule_hits_char]
  rw [foldl_ded_sum]
  · rw [zero_add, List.map_map]
    rfl
  · intro e he
    obtain ⟨rid, hrid, rfl⟩ := List.mem_map.mp he
    exact (hitsFun_fired (posFilter ms) rid (by
      simpa [specRuleIds, posFilter, mem_distinctList] using hrid)).2

theorem dedSum_nonneg (ms : List MatchResult) : 0 ≤ dedSum ms := by
  rw [dedSum_eq]
  apply List.sum_nonneg
  intro q hq
  obtain ⟨rid, hrid, rfl⟩ := List.mem_map.mp hq
  have hfired : rid ∈ (posFilter ms).map (·.rule_id) := by
    simpa [specRuleIds, posFilter, mem_distinctList] using hrid
  obtain ⟨⟨m, hm, hw, hr⟩, _⟩ := hitsFun_fired (posFilter ms) rid hfired
  have hpos : 0 < m.weight := of_decide_eq_true (List.mem_filter.mp hm).2
  exact decayDeduction_nonneg _ (hw ▸ hpos) _

theorem roundHalfAway_nonneg {q : ℚ} (h : 0 ≤ q) : 0 ≤ roundHalfAway q := by
  unfold roundHalfAway
  rw [if_pos h]
  exact Int.floor_nonneg.mpr (by linarith)

theorem roundHalfAway_le_of_le {q : ℚ} {b : ℤ} (h0 : 0 ≤ q) (hq : q ≤ (b : ℚ)) :
    roundHalfAway q ≤ b := by
  unfold roundHalfAway
  rw [if_pos h0]
  rw [Int.floor_le_iff]
  linarith

theorem roundHalfAway_max_zero (q : ℚ) :
    roundHalfAway (max 0 q) = max 0 (roundHalfAway q) := by
  rcases le_or_lt 0 q with h | h
  · rw [max_eq_right h]
    exact (max_eq_right (roundHalfAway_nonneg h)).symm
  · rw [max_eq_left h.le]
    have h1 : roundHalfAway 0 = 0 := by
      unfold roundHalfAway
      rw [if_pos le_rfl]
      norm_num
    have h2 : roundHalfAway q ≤ 0 := by
      unfold roundHalfAway
      rw [if_neg (not_le.mpr h)]
      exact neg_nonpos.mpr (Int.floor_nonneg.mpr (by linarith))
    rw [h1]
    exact (max_eq_left h2).symm

theorem hitsFun_eq_spec (ms : List MatchResult) (rid : String)
    (hcons : weightConsistent ms) (hrid : rid ∈ specRuleIds ms) :
    (hitsFun (posFilter ms) rid).1 = specWeight ms rid ∧
      (hitsFun (posFilter ms) rid).2.length = specDistinctFiles ms rid := by
  have hfired : rid ∈ (posFilter ms).map (·.rule_id) := by
    simpa [specRuleIds, posFilter, mem_distinctList] using hrid
  have hF := filter_rid_eq_pos ms rid hcons hfired
  constructor
  · obtain ⟨⟨z, hz, hzw, hzr⟩, _⟩ := hitsFun_fired (posFilter ms) rid hfired
    have hzms : z ∈ ms := (List.mem_filter.mp hz).1
    have hzP : z ∈ (posFilter ms).filter (fun m => m.rule_id = rid) :=
      List.mem_filter.mpr ⟨hz, decide_eq_true hzr⟩
    rcases hFF : ms.filter (fun m => m.rule_id = rid) with _ | ⟨y, ys⟩
    · rw [hF] at hFF
      exact absurd hFF (List.ne_nil_of_mem hzP)
    · have hyF : y ∈ ms.filter (fun m => m.rule_id = rid) := by
        rw [hFF]; exact List.mem_cons_self _ _
      obtain ⟨hyms, hyr⟩ := List.mem_filter.mp hyF
      have : specWeight ms rid = y.weight := by
        unfold specWeight
        rw [hFF]
      rw [this, hzw]
      exact hcons z hzms y hyms (by rw [hzr, of_decide_eq_true hyr])
  · unfold hitsFun specDistinctFiles
    rw [hF]

theorem dedSum_eq_spec (ms : List MatchResult) (hcons : weightConsistent ms) :
    dedSum ms = ((specRuleIds ms).map
      (fun rid => decayDeduction (specWeight ms rid) (specDistinctFiles ms rid))).sum := by
  rw [dedSum_eq]
  congr 1
  refine List.map_congr_left (fun rid hrid => ?_)
  obtain ⟨h1, h2⟩ := hitsFun_eq_spec ms rid hcons hrid
  rw [h1, h2]

/-- C1: `calculate_score_weighted` groups matches by rule id, counts for
each positive-weight rule the number `n` of distinct file paths among its
matches (repeats within one file do not increase `n`), deducts
`w * (1 - 0.5^n) / (1 - 0.5)` for that rule, and returns
`max(0, round(100 - Σ deductions))`; and for every list of matches the
returned score lies in `[0, 100]`.  The hypothesis records that all
matches of one rule carry the same weight, as the scanner produces them
(each match copies its rule's weight). -/
theorem scorer_decay_spec (ms ms' : List MatchResult) (hcons : weightConsistent ms) :
    calculate_score_weighted ms = spec_security_score ms ∧
      0 ≤ calculate_score_weighted ms' ∧ calculate_score_weighted ms' ≤ 100 := by
  refine ⟨?_, ?_, ?_⟩
  · unfold calculate_score_weighted spec_security_score
    rw [roundHalfAway_max_zero, dedSum_eq_spec ms hcons]
  · exact roundHalfAway_nonneg (le_max_left _ _)
  · apply roundHalfAway_le_of_le (le_max_left _ _)
    have hd := dedSum_nonneg ms'
    apply max_le (by norm_num)
    push_cast
    linarith

/-- Example match list for the scorer: one rule firing in two distinct
files, plus a repeat in the first file. -/
def c1ex : List MatchResult :=
  [{ rule_id := "SUDO", rule_name := "SUDO", severity := .medium, category := .privilege,
     weight := 10, description := "priv", hard_trigger := false, line_number := 1,
     code_snippet := "sudo x", file_path := "a.sh" },
   { rule_id := "SUDO", rule_name := "SUDO", severity := .medium, category := .privilege,
     weight := 10, description := "priv", hard_trigger := false, line_number := 7,
     code_snippet := "sudo y", file_path := "a.sh" },
   { rule_id := "SUDO", rule_name := "SUDO", severity := .medium, category := .privilege,
     weight := 10, description := "priv", hard_trigger := false, line_number := 2,
     code_snippet := "sudo z", file_path := "b.sh" }]

/-- Witness for `scorer_decay_spec` at a concrete match list. -/
theorem scorer_decay_spec_witness :
    weightConsistent c1ex ∧
      (calculate_score_weighted c1ex = spec_security_score c1ex ∧
        0 ≤ calculate_score_weighted c1ex ∧ calculate_score_weighted c1ex ≤ 100) :=
  ⟨by decide, scorer_decay_spec c1ex c1ex (by decide)⟩

/-- `scanner.rs::Utf16Encoding`. -/
inductive Utf16Encoding
  | littleEndian
  | bigEndian
deriving DecidableEq, Repr

/-- A UTF-8 continuation byte (`0x80..=0xBF`). -/
def isUtf8Cont (b : Nat) : Bool := 0x80 ≤ b && b ≤ 0xBF

/-- Admissible first continuation byte of a three-byte UTF-8 sequence. -/
def utf8Cont1Ok3 (b c : Nat) : Bool :=
  if b = 0xE0 then 0xA0 ≤ c && c ≤ 0xBF
  else if b = 0xED then 0x80 ≤ c && c ≤ 0x9F
  else isUtf8Cont c

/-- Admissible first continuation byte of a four-byte UTF-8 sequence. -/
def utf8Cont1Ok4 (b c : Nat) : Bool :=
  if b = 0xF0 then 0x90 ≤ c && c ≤ 0xBF
  else if b = 0xF4 then 0x80 ≤ c && c ≤ 0x8F
  else isUtf8Cont c

/-- Model of Rust `String::from_utf8_lossy`'s decoding loop: well-formed
UTF-8 sequences decode to their scalar value, ill-formed bytes become
`U+FFFD` and decoding resumes at the next byte.  The fuel argument (the
input length at the top call) only serves structural recursion: every
step consumes at least one byte. -/
def utf8Go : Nat → List Nat → List Nat
  | 0, _ => []
  | _, [] => []
  | fuel + 1, b :: rest =>
    if b < 0x80 then b :: utf8Go fuel rest
    else if 0xC2 ≤ b ∧ b ≤ 0xDF then
      match rest with
      | c :: rest2 =>
          if isUtf8Cont c then ((b - 0xC0) * 64 + (c - 0x80)) :: utf8Go fuel rest2
          else 0xFFFD :: utf8Go fuel (c :: rest2)
      | [] => [0xFFFD]
    else if 0xE0 ≤ b ∧ b ≤ 0xEF then
      match rest with
      | c :: rest2 =>
          if utf8Cont1Ok3 b c then
            match rest2 with
            | d :: rest3 =>
                if isUtf8Cont d then
                  ((b - 0xE0) * 4096 + (c - 0x80) * 64 + (d - 0x80)) :: utf8Go fuel rest3
                else 0xFFFD :: utf8Go fuel (d :: rest3)
            | [] => [0xFFFD]
          else 0xFFFD :: utf8Go fuel (c :: rest2)
      | [] => [0xFFFD]
    else if 0xF0 ≤ b ∧ b ≤ 0xF4 then
      match rest with
      | c :: rest2 =>
          if utf8Cont1Ok4 b c then
            match rest2 with
            | d :: rest3 =>
                if isUtf8Cont d then
                  match rest3 with
                  | e :: rest4 =>
                      if isUtf8Cont e then
                        ((b - 0xF0) * 262144 + (c - 0x80) * 4096 + (d - 0x80) * 64 + (e - 0x80))
                          :: utf8Go fuel rest4
                      else 0xFFFD :: utf8Go fuel (e :: rest4)
                  | [] => [0xFFFD]
                else 0xFFFD :: utf8Go fuel (d :: rest3)
            | [] => [0xFFFD]
          else 0xFFFD :: utf8Go fuel (c :: rest2)
      | [] => [0xFFFD]
    else 0xFFFD :: utf8Go fuel rest

/-- The decoding loop at full fuel. -/
def utf8DecodeLossy (l : List Nat) : List Nat :=
  utf8Go l.length l

/-- Model of Rust `String::from_utf8_lossy`, producing a `String`. -/
def from_utf8_lossy (buf : List Nat) : String :=
  ⟨(utf8DecodeLossy buf).map Char.ofNat⟩

/-- `chunks_exact(2)` plus `u16::from_le_bytes`/`from_be_bytes` of
`scanner.rs::decode_utf16`: the 16-bit code units of a byte buffer
(a trailing odd byte is dropped). -/
def utf16Units (enc : Utf16Encoding) : List Nat → List Nat
  | b0 :: b1 :: rest =>
      (match enc with
       | .littleEndian => b0 + 256 * b1
       | .bigEndian => 256 * b0 + b1) :: utf16Units enc rest
  | _ => []

/-- Model of Rust `String::from_utf16_lossy` on code units: surrogate
pairs combine, lone surrogates become `U+FFFD`.  Fuel as in `utf8Go`. -/
def utf16Go : Nat → List Nat → List Nat
  | 0, _ => []
  | _, [] => []
  | fuel + 1, u :: rest =>
    if u < 0xD800 ∨ 0xDFFF < u then u :: utf16Go fuel rest
    else if u ≤ 0xDBFF then
      match rest with
      | v :: rest2 =>
          if 0xDC00 ≤ v ∧ v ≤ 0xDFFF then
            (0x10000 + (u - 0xD800) * 0x400 + (v - 0xDC00)) :: utf16Go fuel rest2
          else 0xFFFD :: utf16Go fuel (v :: rest2)
      | [] => [0xFFFD]
    else 0xFFFD :: utf16Go fuel rest

/-- The UTF-16 lossy decoding loop at full fuel. -/
def utf16LossyScalars (l : List Nat) : List Nat :=
  utf16Go l.length l

/-- `scanner.rs::decode_utf16`: drop the BOM offset, read 16-bit units,
decode lossily. -/
def decode_utf16 (buf : List Nat) (enc : Utf16Encoding) (offset : Nat) : String :=
  ⟨(utf16LossyScalars (utf16Units enc (buf.drop offset))).map Char.ofNat⟩

/-- `scanner.rs::detect_utf16_encoding`: BOM detection, then statistical
null-byte parity analysis on a sample of at most 4096 bytes.  The `f32`
ratio comparisons `< 0.1`, `> 0.6`, `< 0.2` are written cross-multiplied. -/
def detect_utf16_encoding (buf : List Nat) : Option (Utf16Encoding × Nat) :=
  if buf.length < 2 then none
  else if buf.take 2 = [0xFF, 0xFE] then some (.littleEndian, 2)
  else if buf.take 2 = [0xFE, 0xFF] then some (.bigEndian, 2)
  else
    let sample_len := min buf.length 4096
    if sample_len < 4 then none
    else
      let sample := buf.take sample_len
      let total_zeros := (sample.filter (fun b => b = 0)).length
      let evens := sample.enum.filter (fun p => p.1 % 2 = 0)
      let odds := sample.enum.filter (fun p => p.1 % 2 = 1)
      let even_zeros := (evens.filter (fun p => p.2 = 0)).length
      let odd_zeros := (odds.filter (fun p => p.2 = 0)).length
      if 10 * total_zeros < sample_len then none
      else if 5 * odd_zeros > 3 * odds.length ∧ 5 * even_zeros < evens.length then
        some (.littleEndian, 0)
      else if 5 * even_zeros > 3 * evens.length ∧ 5 * odd_zeros < odds.length then
        some (.bigEndian, 0)
      else none

/-- Rust `char::is_control`: the Unicode `Cc` category. -/
def isControlChar (c : Char) : Bool :=
  c.toNat < 0x20 || (0x7F ≤ c.toNat && c.toNat ≤ 0x9F)

/-- `scanner.rs::is_likely_text`: over a sample of at most 8192 chars,
the replacement-character ratio must be `< 0.05` and the
control-character ratio (newlines, carriage returns and tabs not
counted) must be `< 0.02`; an empty sample is not text. -/
def is_likely_text (s : String) : Bool :=
  let sample := s.data.take 8192
  let total := sample.length
  let replacement := (sample.filter (fun c => c = '�')).length
  let control :=
    (sample.filter (fun c => isControlChar c ∧ c ≠ '\n' ∧ c ≠ '\r' ∧ c ≠ '\t')).length
  if total = 0 then false
  else decide (20 * replacement < total) && decide (50 * control < total)

/-- The per-file content decision of `scan_directory_with_options`
(`scanner.rs` lines 555–570): a UTF-16 candidate is taken when detected
by BOM (`offset > 0`) or when the decoded text looks like text; otherwise
a buffer containing a NUL byte is binary (`none` = skipped), and any
other buffer is decoded as lossy UTF-8. -/
def decode_content (buf : List Nat) : Option String :=
  let c : Option String :=
    match detect_utf16_encoding buf with
    | some (enc, off) =>
        let decoded := decode_utf16 buf enc off
        if off > 0 || is_likely_text decoded then some decoded else none
    | none => none
  match c with
  | some s => some s
  | none => if buf.contains 0 then none else some (from_utf8_lossy buf)

/-- Strip one trailing carriage return (the `\r` of a `\r\n` line
ending), as Rust `str::lines` does for terminated lines. -/
def stripTrailingCR (l : List Char) : List Char :=
  if l.getLast? = some '\r' then l.dropLast else l

/-- Split a char list at every newline (`n` newlines yield `n + 1`
segments, the newlines themselves dropped). -/
def splitNL : List Char → List (List Char)
  | [] => [[]]
  | c :: rest =>
      let r := splitNL rest
      if c = '\n' then [] :: r
      else (c :: r.headI) :: r.tail

/-- Model of Rust `str::lines`: split at `\n`, drop one `\r` before each
`\n`, no trailing empty line for a trailing newline, and a lone final
segment kept verbatim. -/
def lines_rust (s : String) : List String :=
  match s.data with
  | [] => []
  | cs =>
      let segs := splitNL cs
      let segs2 :=
        if segs.getLast? = some [] then segs.dropLast.map stripTrailingCR
        else segs.dropLast.map stripTrailingCR ++ [(segs.getLast?).getD []]
      segs2.map List.asString

/-- The final path component (Rust `Path::file_name` on the relative
paths the scanner builds, which never end in a separator). -/
def file_name (path : String) : String :=
  ⟨(path.data.reverse.takeWhile (fun c => c ≠ '/')).reverse⟩

/-- Rust `str::to_ascii_lowercase` (Lean's `Char.toLower` lowers exactly
the ASCII uppercase letters). -/
def asciiLowercase (s : String) : String :=
  ⟨s.data.map Char.toLower⟩

/-- `scanner.rs::normalized_extension`: `Path::extension`, ASCII-lowered.
The extension is the part after the last dot of the file name, unless the
only dot starts the name. -/
def normalized_extension (file_path : String) : Option String :=
  let name := file_name file_path
  let cs := name.data
  match (cs.enum.filter (fun p => p.2 = '.')).getLast? with
  | none => none
  | some (i, _) => if i = 0 then none else some (asciiLowercase ⟨cs.drop (i + 1)⟩)

/-- `scanner.rs::is_skill_md`: case-insensitive comparison of the file
name with the canonical manifest name. -/
def is_skill_md (file_path : String) : Bool :=
  asciiLowercase (file_name file_path) = "skill.md"

/-- `scanner.rs::is_shell_ext`. -/
def is_shell_ext (ext : Option String) : Bool :=
  match ext with
  | some e => ["sh", "bash", "zsh", "ksh", "fish", "csh", "tcsh"].contains e
  | none => false

/-- `scanner.rs::is_script_or_code_ext`. -/
def is_script_or_code_ext (ext : Option String) : Bool :=
  is_shell_ext ext ||
    (match ext with
     | some e =>
         ["py", "pyw", "pyi", "js", "jsx", "ts", "tsx", "mjs", "cjs",
          "php", "phtml", "php3", "php4", "php5", "php7", "php8",
          "rb", "rake", "gemspec", "ru", "go", "java", "kt", "kts", "groovy",
          "cs", "csx", "ps1", "psm1", "psd1", "bat", "cmd"].contains e
     | none => false)

/-- `scanner.rs::rule_applies_to_extension`: per-rule file-type gate,
keyed by rule id; unknown rules apply to every file type. -/
def rule_applies_to_extension (rule_id : String) (ext : Option String) : Bool :=
  match rule_id with
  | "PY_EVAL" | "PY_EXEC" | "OS_SYSTEM" | "SUBPROCESS_SHELL" | "SUBPROCESS_CALL"
  | "PY_URLLIB" | "HTTP_REQUEST" =>
      (match ext with
       | some e => ["py", "pyw", "pyi"].contains e
       | none => false)
  | "NODE_CHILD_EXEC" | "NODE_VM_RUN" | "NODE_CHILD_SPAWN" =>
      (match ext with
       | some e => ["js", "jsx", "ts", "tsx", "mjs", "cjs"].contains e
       | none => false)
  | "PHP_EXEC" =>
      (match ext with
       | some e => ["php", "phtml", "php3", "php4", "php5", "php7", "php8"].contains e
       | none => false)
  | "RUBY_SYSTEM_EXEC" =>
      (match ext with
       | some e => ["rb", "rake", "gemspec", "ru"].contains e
       | none => false)
  | "GO_EXEC_COMMAND" =>
      (match ext with
       | some e => e = "go"
       | none => false)
  | "JAVA_RUNTIME_EXEC" | "JAVA_PROCESS_BUILDER" =>
      (match ext with
       | some e => ["java", "kt", "kts", "groovy"].contains e
       | none => false)
  | "CSHARP_PROCESS_START" =>
      (match ext with
       | some e => ["cs", "csx"].contains e
       | none => false)
  | "POWERSHELL_BYPASS_POLICY" | "POWERSHELL_ENCODED_COMMAND" | "POWERSHELL_IEX_DOWNLOAD"
  | "POWERSHELL_PIPE_IEX" | "POWERSHELL_RUN_KEY" | "POWERSHELL_START_PROCESS" =>
      (match ext with
       | some e => ["ps1", "psm1", "psd1"].contains e
       | none => false)
  | "CMD_WRAPPER" =>
      (match ext with
       | some e => ["bat", "cmd", "ps1"].contains e
       | none => false)
  | "CURL_PIPE_SH" | "WGET_PIPE_SH" | "BASE64_EXEC" | "REVERSE_SHELL" | "CURL_POST"
  | "NETCAT" | "FTP_PROTOCOL" => is_script_or_code_ext ext
  | "SUDO" | "CHMOD_777" | "SUDOERS" | "CRONTAB" | "SSH_KEYS"
  | "STARTUP_FOLDER_PERSISTENCE" | "SCHTASKS_CREATE" => is_script_or_code_ext ext
  | "REG_RUN_KEY_ADD" =>
      (match ext with
       | some e => ["bat", "cmd", "ps1", "reg"].contains e
       | none => false)
  | "READ_SSH_PRIVATE_KEY" | "READ_AWS_CREDENTIALS" | "READ_ENV_FILE" | "READ_PASSWD"
  | "READ_SHADOW" | "READ_GIT_CREDENTIALS" | "READ_WINDOWS_SAM" | "READ_WINDOWS_CREDENTIALS"
  | "READ_POWERSHELL_HISTORY" | "READ_CHROME_LOGIN_DATA" | "READ_EDGE_LOGIN_DATA"
  | "READ_FIREFOX_LOGINS" | "READ_DOCKER_CONFIG" | "READ_NPMRC" | "READ_PYPIRC"
  | "READ_NETRC" => is_script_or_code_ext ext
  | "WEBSOCKET_CONNECT" =>
      (match ext with
       | some e => ["js", "jsx", "ts", "tsx", "mjs", "cjs", "py", "rb"].contains e
       | none => false)
  | _ => true

/-- A detection rule.  The shape follows the spec's data model; the
compiled regex is embedded as an opaque line predicate, and the whole
rule table (`SecurityRules::get_all_patterns`, whose defining source file
is not among the modelled sources) is a parameter of every scan. -/
structure SecurityRule where
  id : String
  name : String
  pattern : String → Bool
  category : Category
  severity : Severity
  weight : Int
  description : String
  hard_trigger : Bool

/-- Modelled from the spec: `SecurityRules::quick_match` (the `RegexSet`
pre-filter, defined in the missing rule-table source) returns the indices
of the rules whose pattern could match the line; the spec requires final
matches to be identical to running every rule directly, and each
candidate is re-verified against `rule.pattern` afterwards, so the exact
matching indices are returned. -/
def quick_match (rules : List SecurityRule) (line : String) : List Nat :=
  (List.range rules.length).filter (fun i =>
    match rules.get? i with
    | some r => r.pattern line
    | none => false)

/-- The inner per-line rule loop shared by `scan_file` and
`scan_directory_with_options`: quick-filtered rules are re-checked for
file-type applicability (`SKILL.md` bypasses it) and for a precise
pattern match, and each surviving rule yields a `MatchResult`. -/
def line_matches (rules : List SecurityRule) (skillMd : Bool) (ext : Option String)
    (file_path : String) (line_num : Nat) (line : String) : List MatchResult :=
  (quick_match rules line).filterMap (fun i =>
    match rules.get? i with
    | none => none
    | some rule =>
        if !skillMd && !rule_applies_to_extension rule.id ext then none
        else if !rule.pattern line then none
        else some
          { rule_id := rule.id, rule_name := rule.name, severity := rule.severity,
            category := rule.category, weight := rule.weight,
            description := rule.description, hard_trigger := rule.hard_trigger,
            line_number := line_num + 1, code_snippet := line, file_path := file_path })

/-- The line loop of `scan_file` (and of the per-file body of the
directory scan): all matches of a file's content. -/
def content_matches (rules : List SecurityRule) (skillMd : Bool) (ext : Option String)
    (file_path : String) (content : String) : List MatchResult :=
  (lines_rust content).enum.bind (fun p => line_matches rules skillMd ext file_path p.1 p.2)

/-- Modelled from the spec: user-facing issue severity
(`models/security.rs` is not among the modelled sources; the spec's data
model and `scanner.rs::map_severity`'s match arms fix the variants). -/
inductive IssueSeverity
  | critical
  | error
  | warning
  | info
deriving DecidableEq, Repr

/-- Modelled from the spec: user-facing issue category (variants fixed by
the spec's data model and `scanner.rs::map_category`'s match arms). -/
inductive IssueCategory
  | fileSystem
  | processExecution
  | dangerousFunction
  | network
  | dataExfiltration
  | other
deriving DecidableEq, Repr

/-- Modelled from the spec: `SecurityIssue`, the user-facing projection of
a match. -/
structure SecurityIssue where
  severity : IssueSeverity
  category : IssueCategory
  description : String
  line_number : Option Nat
  code_snippet : Option String
  file_path : Option String
deriving DecidableEq, Repr

/-- Modelled from the spec: discrete risk level. -/
inductive SecurityLevel
  | safe
  | low
  | medium
  | high
  | critical
deriving DecidableEq, Repr

/-- Modelled from the spec: `SecurityLevel::from_score`, a deterministic
banding of the score (the spec's example thresholds; no claim depends on
the exact table). -/
def SecurityLevel.from_score (score : Int) : SecurityLevel :=
  if score ≥ 90 then .safe
  else if score ≥ 70 then .low
  else if score ≥ 50 then .medium
  else if score ≥ 25 then .high
  else .critical

/-- Modelled from the spec: `SecurityReport` (fields as the spec's data
model lists them). -/
structure SecurityReport where
  skill_id : String
  score : Int
  level : SecurityLevel
  issues : List SecurityIssue
  recommendations : List String
  blocked : Bool
  hard_trigger_issues : List String
  scanned_files : List String
  partial_scan : Bool
  skipped_files : List String
deriving DecidableEq, Repr

/-- `scanner.rs::map_severity`. -/
def map_severity : Severity → IssueSeverity
  | .critical => .critical
  | .high => .error
  | .medium => .warning
  | .low => .info

/-- `scanner.rs::map_category`. -/
def map_category : Category → IssueCategory
  | .destructive => .fileSystem
  | .remoteExec => .processExecution
  | .cmdInjection => .dangerousFunction
  | .network => .network
  | .privilege => .processExecution
  | .secrets => .dataExfiltration
  | .persistence => .processExecution
  | .sensitiveFileAccess => .fileSystem

/-- Modelled from the spec: the localized hard-trigger message template
`security.hard_trigger_issue` (its locale resources are not among the
modelled sources; the production format, also quoted in `scanner.rs`'s
tests, names the rule, the file, the line and the description). -/
def hard_trigger_issue_msg (rule_name file : String) (line : Nat) (description : String) :
    String :=
  rule_name ++ " (File: " ++ file ++ ", Line: " ++ toString line ++ "): " ++ description

/-- Modelled from the spec: the localized per-file hard-trigger template
`security.hard_trigger_file_issue`, naming the rule, the file and the
description. -/
def hard_trigger_file_issue_msg (rule_name file description : String) : String :=
  rule_name ++ " (File: " ++ file ++ "): " ++ description

/-- Modelled from the spec: the localized `security.symlink_detected`
description. -/
def symlink_detected_msg : String :=
  "symbolic link detected inside skill directory"

/-- `scanner.rs::generate_recommendations`, with each localized `t!` text
modelled as its lookup key. -/
def generate_recommendations (ms : List MatchResult) (score : Int) : List String :=
  if ms.any (·.hard_trigger) then
    "security.blocked_message" ::
      (ms.filter (·.hard_trigger)).map (fun m => "  - " ++ m.description)
  else
    let base :=
      (if score < 50 then ["security.score_warning_severe"]
       else if score < 70 then ["security.score_warning_medium"]
       else []) ++
      (if ms.any (fun m => m.category = Category.destructive) then
        ["security.recommendations.destructive"] else []) ++
      (if ms.any (fun m => m.category = Category.remoteExec) then
        ["security.recommendations.remote_exec"] else []) ++
      (if ms.any (fun m => m.category = Category.cmdInjection) then
        ["security.recommendations.cmd_injection"] else []) ++
      (if ms.any (fun m => m.category = Category.network) then
        ["security.recommendations.network"] else []) ++
      (if ms.any (fun m => m.category = Category.secrets) then
        ["security.recommendations.secrets"] else []) ++
      (if ms.any (fun m => m.category = Category.persistence) then
        ["security.recommendations.persistence"] else []) ++
      (if ms.any (fun m => m.category = Category.privilege) then
        ["security.recommendations.privilege"] else []) ++
      (if ms.any (fun m => m.category = Category.sensitiveFileAccess) then
        ["security.recommendations.sensitive_file"] else [])
    if base.isEmpty then ["security.no_issues"] else base

/-- `scanner.rs::scan_file`: scan an in-memory string as one nominal
file.  `blocked` is exactly "some hard-trigger rule matched"; the report
always covers the single given path, with no skips and no partial scan. -/
def scan_file (rules : List SecurityRule) (content : String) (file_path : String) :
    SecurityReport :=
  let ms := content_matches rules (is_skill_md file_path)
    (normalized_extension file_path) file_path content
  let issues : List SecurityIssue := ms.map (fun m =>
    { severity := map_severity m.severity, category := map_category m.category,
      description := m.rule_name ++ ": " ++ m.description,
      line_number := some m.line_number, code_snippet := some m.code_snippet,
      file_path := some file_path })
  let hard := ms.filter (·.hard_trigger)
  let blocked := !hard.isEmpty
  let hard_trigger_issues := hard.map (fun m =>
    hard_trigger_issue_msg m.rule_name file_path m.line_number m.description)
  let score := calculate_score_weighted ms
  { skill_id := file_path, score, level := SecurityLevel.from_score score, issues,
    recommendations := generate_recommendations ms score, blocked,
    hard_trigger_issues, scanned_files := [file_path], partial_scan := false,
    skipped_files := [] }

/-- A file-system tree: the input of the directory scan.  Symlinks carry
no target — the scanner never follows them (`follow_links(false)`). -/
inductive FsEntry
  | file (name : String) (bytes : List Nat)
  | dir (name : String) (entries : List FsEntry)
  | symlink (name : String)

/-- What `WalkDir` reports for one directory entry. -/
inductive WalkKind
  | dirEntry
  | fileEntry (bytes : List Nat)
  | symlinkEntry
deriving DecidableEq, Repr

/-- One yielded `WalkDir` entry: its kind, its file name, and its path
components relative to the scan root (`[]` for the root itself). -/
structure WalkItem where
  kind : WalkKind
  name : String
  rel : List String
deriving DecidableEq, Repr

/-- `scanner.rs::MAX_SCAN_DEPTH`. -/
def MAX_SCAN_DEPTH : Nat := 20

/-- `scanner.rs::MAX_FILES`. -/
def MAX_FILES : Nat := 2000

/-- `scanner.rs::MAX_BYTES_PER_FILE` (2 MiB). -/
def MAX_BYTES_PER_FILE : Nat := 2 * 1024 * 1024

/-- `scanner.rs::SKIP_DIR_NAMES`: directories never descended into. -/
def SKIP_DIR_NAMES : List String :=
  [".git", "node_modules", "target", "dist", "build", "__pycache__", ".venv", "venv"]

mutual

/-- Entries `WalkDir::new(root).follow_links(false).max_depth(20)` yields
for one tree node at the given depth (the scanner's `skip_current_dir`
on `SKIP_DIR_NAMES` folded in: such a directory is yielded but its
children are not). -/
def walkEntry (depth : Nat) (parentRel : List String) : FsEntry → List WalkItem
  | .file n b => [⟨.fileEntry b, n, parentRel ++ [n]⟩]
  | .symlink n => [⟨.symlinkEntry, n, parentRel ++ [n]⟩]
  | .dir n es =>
      ⟨.dirEntry, n, parentRel ++ [n]⟩ ::
        (if depth + 1 ≤ MAX_SCAN_DEPTH && !(SKIP_DIR_NAMES.contains n) then
          walkEntries (depth + 1) (parentRel ++ [n]) es
         else [])

/-- Depth-first, left-to-right traversal of a sibling list. -/
def walkEntries (depth : Nat) (parentRel : List String) : List FsEntry → List WalkItem
  | [] => []
  | e :: es => walkEntry depth parentRel e ++ walkEntries depth parentRel es

end

/-- All entries the scan loop sees for a root directory: the root itself
(at depth 0) and, unless the root bears a skip name, its contents. -/
def walkItems (rootName : String) (entries : List FsEntry) : List WalkItem :=
  ⟨.dirEntry, rootName, []⟩ ::
    (if SKIP_DIR_NAMES.contains rootName then [] else walkEntries 1 [] entries)

/-- Join relative path components with `/` (the display of
`Path::strip_prefix`'s result on Unix). -/
def joinPath : List String → String
  | [] => ""
  | [c] => c
  | c :: rest => c ++ "/" ++ joinPath rest

/-- `scanner.rs::ScanOptions`. -/
structure ScanOptions where
  skip_readme : Bool
deriving DecidableEq, Repr

/-- `ScanOptions::default()`. -/
def defaultScanOptions : ScanOptions := ⟨false⟩

/-- The readme test of the scan loop: `readme.md` or `readme.<locale>.md`,
case-insensitively. -/
def isReadmeName (name : String) : Bool :=
  let lower := asciiLowercase name
  lower = "readme.md" ||
    (("readme.".data.isPrefixOf lower.data) && (".md".data.isSuffixOf lower.data))

/-- The mutable loop state of `scan_directory_with_options`. -/
structure DirScanState where
  issues : List SecurityIssue
  all_matches : List MatchResult
  scanned_files : List String
  hard_triggers : List String
  skipped_files : List String
  blocked : Bool
  partial_scan : Bool
  files_scanned : Nat
deriving DecidableEq, Repr

/-- The initial loop state. -/
def initState : DirScanState := ⟨[], [], [], [], [], false, false, 0⟩

/-- The Warning issue recorded when the file cap stops the scan. -/
def capWarningIssue : SecurityIssue :=
  { severity := .warning, category := .other,
    description := "Scan stopped early: exceeded max file limit (2000). Some files were not scanned.",
    line_number := none, code_snippet := none, file_path := none }

/-- The Info issue recorded when a file is truncated at 2 MiB. -/
def truncatedIssue (rel : String) : SecurityIssue :=
  { severity := .info, category := .other,
    description := "File truncated for scanning (>2097152 bytes). Only the first 2097152 bytes were scanned.",
    line_number := none, code_snippet := none, file_path := some rel }

/-- The Critical issue recorded for a symlink. -/
def symlinkIssue (rel : String) : SecurityIssue :=
  { severity := .critical, category := .fileSystem,
    description := "SYMLINK: symbolic link detected inside skill directory",
    line_number := none, code_snippet := none, file_path := some rel }

/-- The per-file body of the directory scan loop (read capped at
`MAX_BYTES_PER_FILE + 1` bytes, truncation recorded, content decision by
`decode_content`, then the shared line loop).  The file system model has
no read failures, so the unreadable-file branch of the source does not
arise. -/
def scanFileStep (rules : List SecurityRule) (st : DirScanState) (rel : String)
    (bytes : List Nat) : DirScanState :=
  let buf := bytes.take (MAX_BYTES_PER_FILE + 1)
  let truncated := decide (MAX_BYTES_PER_FILE < buf.length)
  let buf2 := if truncated then buf.take MAX_BYTES_PER_FILE else buf
  let st1 := if truncated then
      { st with issues := st.issues ++ [truncatedIssue rel], partial_scan := true }
    else st
  match decode_content buf2 with
  | none =>
      { st1 with skipped_files := st1.skipped_files ++ [rel], partial_scan := true }
  | some content =>
      let ms := content_matches rules (is_skill_md rel) (normalized_extension rel) rel content
      let hard := ms.filter (·.hard_trigger)
      { st1 with
        scanned_files := st1.scanned_files ++ [rel]
        files_scanned := st1.files_scanned + 1
        all_matches := st1.all_matches ++ ms
        blocked := st1.blocked || !hard.isEmpty
        hard_triggers := st1.hard_triggers ++ hard.map (fun m =>
          hard_trigger_issue_msg m.rule_name rel m.line_number m.description)
        issues := st1.issues ++ ms.map (fun m =>
          { severity := map_severity m.severity, category := map_category m.category,
            description := m.rule_name ++ ": " ++ m.description,
            line_number := some m.line_number, code_snippet := some m.code_snippet,
            file_path := some rel }) }

/-- The walk loop of `scan_directory_with_options`: directories are
skipped (their descent is decided in `walkItems`), symlinks hard-block
and are recorded but not followed, and a file entry first meets the
`MAX_FILES` cap check (which breaks out of the whole loop), then the
readme skip, then the per-file body. -/
def scanLoop (rules : List SecurityRule) (opts : ScanOptions) :
    DirScanState → List WalkItem → DirScanState
  | st, [] => st
  | st, item :: rest =>
    match item.kind with
    | .dirEntry => scanLoop rules opts st rest
    | .symlinkEntry =>
        let rel := joinPath item.rel
        scanLoop rules opts
          { st with
            blocked := true
            hard_triggers := st.hard_triggers ++
              [hard_trigger_file_issue_msg "SYMLINK" rel symlink_detected_msg]
            issues := st.issues ++ [symlinkIssue rel] } rest
    | .fileEntry bytes =>
        if st.files_scanned ≥ MAX_FILES then
          { st with issues := st.issues ++ [capWarningIssue], partial_scan := true }
        else if opts.skip_readme && isReadmeName item.name then
          scanLoop rules opts st rest
        else
          scanLoop rules opts
            (scanFileStep rules st (joinPath item.rel) bytes) rest

/-- The loop state a directory scan ends in. -/
def scan_dir_state (rules : List SecurityRule) (opts : ScanOptions)
    (rootName : String) (entries : List FsEntry) : DirScanState :=
  scanLoop rules opts initState (walkItems rootName entries)

/-- `scanner.rs::scan_directory_with_options`: fails only when the root
is not a directory; otherwise walks the tree and assembles the report. -/
def scan_directory_with_options (rules : List SecurityRule) (opts : ScanOptions)
    (skill_id : String) (root : FsEntry) : Except String SecurityReport :=
  match root with
  | .dir rootName entries =>
      let st := scan_dir_state rules opts rootName entries
      let score := calculate_score_weighted st.all_matches
      .ok { skill_id := skill_id
            score := score
            level := SecurityLevel.from_score score
            issues := st.issues
            recommendations := generate_recommendations st.all_matches score
            blocked := st.blocked
            hard_trigger_issues := st.hard_triggers
            scanned_files := st.scanned_files
            partial_scan := st.partial_scan
            skipped_files := st.skipped_files }
  | _ => .error "common.errors.directory_not_exist"

/-- Rust `str::contains` on literal patterns: some contiguous substring
equals the needle. -/
def containsAux (needle : List Char) : List Char → Bool
  | [] => needle.isPrefixOf []
  | c :: t => needle.isPrefixOf (c :: t) || containsAux needle t

/-- `haystack.contains(needle)`. -/
def str_contains (s pat : String) : Bool :=
  containsAux pat.data s.data

/-- The report payload of a successful directory scan. -/
def scan_dir_report (rules : List SecurityRule) (opts : ScanOptions)
    (skill_id rootName : String) (entries : List FsEntry) : SecurityReport :=
  let st := scan_dir_state rules opts rootName entries
  let score := calculate_score_weighted st.all_matches
  { skill_id := skill_id
    score := score
    level := SecurityLevel.from_score score
    issues := st.issues
    recommendations := generate_recommendations st.all_matches score
    blocked := st.blocked
    hard_trigger_issues := st.hard_triggers
    scanned_files := st.scanned_files
    partial_scan := st.partial_scan
    skipped_files := st.skipped_files }

theorem scan_directory_ok (rules : List SecurityRule) (opts : ScanOptions)
    (skill_id rootName : String) (entries : List FsEntry) :
    scan_directory_with_options rules opts skill_id (.dir rootName entries)
      = .ok (scan_dir_report rules opts skill_id rootName entries) := rfl

/-- C10: in-memory single-file scanning never reports degradation: for
every content and path, `scan_file` returns `partial_scan = false`, an
empty `skipped_files` list, and `scanned_files` equal to exactly the one
given path. -/
theorem scan_file_no_degradation (rules : List SecurityRule) (content file_path : String) :
    (scan_file rules content file_path).partial_scan = false ∧
      (scan_file rules content file_path).skipped_files = [] ∧
      (scan_file rules content file_path).scanned_files = [file_path] :=
  ⟨rfl, rfl, rfl⟩

/-- The matches a `scan_file` call is built from. -/
def scan_file_matches (rules : List SecurityRule) (content file_path : String) :
    List MatchResult :=
  content_matches rules (is_skill_md file_path) (normalized_extension file_path)
    file_path content

theorem scan_file_blocked_iff (rules : List SecurityRule) (content file_path : String) :
    (scan_file rules content file_path).blocked = true ↔
      ∃ m ∈ scan_file_matches rules content file_path, m.hard_trigger = true := by
  have hb : (scan_file rules content file_path).blocked
      = !((scan_file_matches rules content file_path).filter (·.hard_trigger)).isEmpty := rfl
  rw [hb]
  rcases hf : (scan_file_matches rules content file_path).filter (·.hard_trigger) with _ | ⟨m, t⟩
  · rw [hf]
    simp only [List.isEmpty_nil, Bool.not_true, Bool.false_eq_true, false_iff]
    rintro ⟨m, hm, ht⟩
    have hcon := List.filter_eq_nil_iff.mp hf m hm
    simp [ht] at hcon
  · rw [hf]
    simp only [List.isEmpty_cons, Bool.not_false, true_iff]
    have hmem : m ∈ (scan_file_matches rules content file_path).filter (·.hard_trigger) := by
      rw [hf]
      exact List.mem_cons_self _ _
    obtain ⟨h1, h2⟩ := List.mem_filter.mp hmem
    exact ⟨m, h1, h2⟩

theorem scanFileStep_fields (rules : List SecurityRule) (st : DirScanState)
    (rel : String) (bytes : List Nat) :
    ∃ ms : List MatchResult,
      (scanFileStep rules st rel bytes).all_matches = st.all_matches ++ ms ∧
      (scanFileStep rules st rel bytes).blocked
        = (st.blocked || !(ms.filter (·.hard_trigger)).isEmpty) := by
  simp only [scanFileStep]
  split
  · refine ⟨[], ?_, ?_⟩ <;> split <;> simp
  · split <;> exact ⟨_, rfl, rfl⟩

theorem scanLoop_pres_hard (rules : List SecurityRule) (opts : ScanOptions) :
    ∀ (items : List WalkItem) (st : DirScanState),
      ((∃ m ∈ st.all_matches, m.hard_trigger = true) → st.blocked = true) →
      (∃ m ∈ (scanLoop rules opts st items).all_matches, m.hard_trigger = true) →
      (scanLoop rules opts st items).blocked = true := by
  intro items
  induction items with
  | nil => exact fun st h => h
  | cons item rest ih =>
      intro st h
      obtain ⟨kind, name, rel⟩ := item
      cases kind with
      | dirEntry => exact ih st h
      | symlinkEntry =>
          refine ih _ (fun _ => ?_)
          rfl
      | fileEntry bytes =>
          show (∃ m ∈ (scanLoop rules opts st (⟨.fileEntry bytes, name, rel⟩ :: rest)).all_matches,
              m.hard_trigger = true) → _
          simp only [scanLoop]
          by_cases hcap : st.files_scanned ≥ MAX_FILES
          · rw [if_pos hcap]
            exact h
          · rw [if_neg hcap]
            by_cases hrd : (opts.skip_readme && isReadmeName name) = true
            · rw [if_pos hrd]
              exact ih st h
            · rw [if_neg hrd]
              refine ih _ (fun hex => ?_)
              obtain ⟨ms, hms, hbl⟩ :=
                scanFileStep_fields rules st (joinPath rel) bytes
              rw [hbl]
              obtain ⟨m, hm, ht⟩ := hex
              rw [hms] at hm
              rcases List.mem_append.mp hm with hml | hmr
              · rw [h ⟨m, hml, ht⟩]
                rfl
              · have hne : (ms.filter (·.hard_trigger)).isEmpty = false := by
                  rw [Bool.eq_false_iff]
                  intro hemp
                  have hnil : ms.filter (·.hard_trigger) = [] :=
                    List.isEmpty_iff.mp hemp
                  have hc := List.filter_eq_nil_iff.mp hnil m hmr
                  simp [ht] at hc
                rw [hne]
                simp

theorem scanLoop_matches_prefix (rules : List SecurityRule) (opts : ScanOptions) :
    ∀ (items : List WalkItem) (st : DirScanState),
      ∃ t, (scanLoop rules opts st items).all_matches = st.all_matches ++ t := by
  intro items
  induction items with
  | nil => exact fun st => ⟨[], (List.append_nil _).symm⟩
  | cons item rest ih =>
      intro st
      obtain ⟨kind, name, rel⟩ := item
      cases kind with
      | dirEntry => exact ih st
      | symlinkEntry => exact ih _
      | fileEntry bytes =>
          show ∃ t, (scanLoop rules opts st (⟨.fileEntry bytes, name, rel⟩ :: rest)).all_matches = _
          simp only [scanLoop]
          by_cases hcap : st.files_scanned ≥ MAX_FILES
          · rw [if_pos hcap]
            exact ⟨[], (List.append_nil _).symm⟩
          · rw [if_neg hcap]
            by_cases hrd : (opts.skip_readme && isReadmeName name) = true
            · rw [if_pos hrd]
              exact ih st
            · rw [if_neg hrd]
              obtain ⟨ms, hms, _⟩ :=
                scanFileStep_fields rules st (joinPath rel) bytes
              obtain ⟨t, ht⟩ := ih (scanFileStep rules st (joinPath rel) bytes)
              exact ⟨ms ++ t, by rw [ht, hms, List.append_assoc]⟩

theorem scanLoop_no_hard_no_sym (rules : List SecurityRule) (opts : ScanOptions) :
    ∀ (items : List WalkItem) (st : DirScanState),
      st.blocked = false →
      (∀ it ∈ items, it.kind ≠ WalkKind.symlinkEntry) →
      (∀ m ∈ (scanLoop rules opts st items).all_matches, m.hard_trigger = false) →
      (scanLoop rules opts st items).blocked = false := by
  intro items
  induction items with
  | nil => exact fun st hb _ _ => hb
  | cons item rest ih =>
      intro st hb hsym hall
      obtain ⟨kind, name, rel⟩ := item
      cases kind with
      | dirEntry =>
          exact ih st hb (fun it hit => hsym it (List.mem_cons_of_mem _ hit)) hall
      | symlinkEntry =>
          exact absurd rfl (hsym ⟨.symlinkEntry, name, rel⟩ (List.mem_cons_self _ _))
      | fileEntry bytes =>
          revert hall
          show (∀ m ∈ (scanLoop rules opts st (⟨.fileEntry bytes, name, rel⟩ :: rest)).all_matches,
              m.hard_trigger = false) → _
          simp only [scanLoop]
          by_cases hcap : st.files_scanned ≥ MAX_FILES
          · rw [if_pos hcap]
            exact fun _ => hb
          · rw [if_neg hcap]
            by_cases hrd : (opts.skip_readme && isReadmeName name) = true
            · rw [if_pos hrd]
              exact fun hall =>
                ih st hb (fun it hit => hsym it (List.mem_cons_of_mem _ hit)) hall
            · rw [if_neg hrd]
              intro hall
              obtain ⟨ms, hms, hbl⟩ :=
                scanFileStep_fields rules st (joinPath rel) bytes
              obtain ⟨t, htail⟩ := scanLoop_matches_prefix rules opts rest
                (scanFileStep rules st (joinPath rel) bytes)
              have hmsin : ∀ m ∈ ms, m.hard_trigger = false := by
                intro m hm
                apply hall
                rw [htail, hms]
                exact List.mem_append_left _ (List.mem_append_right _ hm)
              have hstep : (scanFileStep rules st (joinPath rel) bytes).blocked
                  = false := by
                rw [hbl, hb]
                have hnil : ms.filter (·.hard_trigger) = [] := by
                  rw [List.filter_eq_nil_iff]
                  intro m hm
                  simp [hmsin m hm]
                rw [hnil]
                rfl
              exact ih _ hstep (fun it hit => hsym it (List.mem_cons_of_mem _ hit)) hall

/-- C2: for both `scan_file` and the directory scan, at least one
matched rule with `hard_trigger` set forces `blocked = true` in the
returned report, independently of the numeric score; and a scan with no
hard-trigger match and no symlink encountered returns `blocked = false`. -/
theorem hard_trigger_blocking (rules : List SecurityRule) (content file_path : String)
    (opts : ScanOptions) (skill_id rootName : String) (entries : List FsEntry) :
    ((∃ m ∈ scan_file_matches rules content file_path, m.hard_trigger = true) →
        (scan_file rules content file_path).blocked = true) ∧
    ((∀ m ∈ scan_file_matches rules content file_path, m.hard_trigger = false) →
        (scan_file rules content file_path).blocked = false) ∧
    ((∃ m ∈ (scan_dir_state rules opts rootName entries).all_matches, m.hard_trigger = true) →
        (scan_dir_report rules opts skill_id rootName entries).blocked = true) ∧
    ((∀ it ∈ walkItems rootName entries, it.kind ≠ WalkKind.symlinkEntry) →
      (∀ m ∈ (scan_dir_state rules opts rootName entries).all_matches, m.hard_trigger = false) →
        (scan_dir_report rules opts skill_id rootName entries).blocked = false) := by
  refine ⟨fun h => (scan_file_blocked_iff rules content file_path).mpr h, ?_, ?_, ?_⟩
  · intro hnone
    rcases hbv : (scan_file rules content file_path).blocked with _ | _
    · rfl
    · obtain ⟨m, hm, ht⟩ := (scan_file_blocked_iff rules content file_path).mp hbv
      have := hnone m hm
      rw [this] at ht
      exact absurd ht (by simp)
  · intro h
    exact scanLoop_pres_hard rules opts (walkItems rootName entries) initState
      (fun hex => absurd hex (by simp [initState])) h
  · intro hsym hall
    exact scanLoop_no_hard_no_sym rules opts (walkItems rootName entries) initState
      rfl hsym hall

/-- A concrete hard-trigger rule for witnesses: the filesystem-wipe
pattern. -/
def c2rule : SecurityRule :=
  { id := "RM_RF_ROOT", name := "RM_RF_ROOT",
    pattern := fun l => str_contains l "rm -rf /",
    category := .destructive, severity := .critical, weight := 60,
    description := "attempts to delete the filesystem root", hard_trigger := true }

/-- The bytes of an ASCII string. -/
def strBytes (s : String) : List Nat :=
  s.data.map Char.toNat

/-- A directory with a wiping script. -/
def c2entries : List FsEntry := [.file "a.sh" (strBytes "rm -rf /")]

/-- A directory with only harmless prose. -/
def c2safeEntries : List FsEntry := [.file "b.md" (strBytes "hello")]

/-- Witness for `hard_trigger_blocking` at concrete scans. -/
theorem hard_trigger_blocking_witness :
    (∃ m ∈ scan_file_matches [c2rule] "rm -rf /" "a.sh", m.hard_trigger = true) ∧
    (scan_file [c2rule] "rm -rf /" "a.sh").blocked = true ∧
    (scan_dir_report [c2rule] defaultScanOptions "sid" "root" c2entries).blocked = true ∧
    (scan_dir_report [c2rule] defaultScanOptions "sid" "root" c2safeEntries).blocked = false := by
  refine ⟨by decide, ?_, ?_, ?_⟩
  · exact (hard_trigger_blocking [c2rule] "rm -rf /" "a.sh" defaultScanOptions
      "sid" "root" c2entries).1 (by decide)
  · exact (hard_trigger_blocking [c2rule] "rm -rf /" "a.sh" defaultScanOptions
      "sid" "root" c2entries).2.2.1 (by decide)
  · exact (hard_trigger_blocking [c2rule] "rm -rf /" "a.sh" defaultScanOptions
      "sid" "root" c2safeEntries).2.2.2 (by decide) (by decide)

theorem scanFileStep_count (rules : List SecurityRule) (st : DirScanState)
    (rel : String) (bytes : List Nat) :
    (scanFileStep rules st rel bytes).files_scanned = st.files_scanned ∨
      (scanFileStep rules st rel bytes).files_scanned = st.files_scanned + 1 := by
  simp only [scanFileStep]
  split
  · split <;> simp
  · split <;> simp

theorem scanFileStep_hard_prefix (rules : List SecurityRule) (st : DirScanState)
    (rel : String) (bytes : List Nat) :
    ∃ t, (scanFileStep rules st rel bytes).hard_triggers = st.hard_triggers ++ t := by
  simp only [scanFileStep]
  split
  · refine ⟨[], ?_⟩
    split <;> simp
  · split <;> exact ⟨_, rfl⟩

/-- Number of regular-file entries among walk items. -/
def fileCount (items : List WalkItem) : Nat :=
  (items.filter (fun it =>
    match it.kind with
    | .fileEntry _ => true
    | _ => false)).length

theorem scanLoop_append_of_fits (rules : List SecurityRule) (opts : ScanOptions) :
    ∀ (pre post : List WalkItem) (st : DirScanState),
      st.files_scanned + fileCount pre ≤ MAX_FILES →
      scanLoop rules opts st (pre ++ post)
        = scanLoop rules opts (scanLoop rules opts st pre) post := by
  intro pre
  induction pre with
  | nil => intro post st _; rfl
  | cons item rest ih =>
      intro post st hfit
      obtain ⟨kind, name, rel⟩ := item
      cases kind with
      | dirEntry =>
          show scanLoop rules opts st (⟨.dirEntry, name, rel⟩ :: (rest ++ post))
              = scanLoop rules opts (scanLoop rules opts st (⟨.dirEntry, name, rel⟩ :: rest)) post
          simp only [scanLoop]
          exact ih post st (by simpa [fileCount] using hfit)
      | symlinkEntry =>
          show scanLoop rules opts st (⟨.symlinkEntry, name, rel⟩ :: (rest ++ post))
              = scanLoop rules opts (scanLoop rules opts st (⟨.symlinkEntry, name, rel⟩ :: rest)) post
          simp only [scanLoop]
          exact ih post _ (by simpa [fileCount] using hfit)
      | fileEntry bytes =>
          have hcount : fileCount (⟨WalkKind.fileEntry bytes, name, rel⟩ :: rest)
              = fileCount rest + 1 := by
            simp [fileCount]
          rw [hcount] at hfit
          have hnc : ¬ st.files_scanned ≥ MAX_FILES := by omega
          show scanLoop rules opts st (⟨.fileEntry bytes, name, rel⟩ :: (rest ++ post))
              = scanLoop rules opts (scanLoop rules opts st (⟨.fileEntry bytes, name, rel⟩ :: rest)) post
          simp only [scanLoop, if_neg hnc]
          by_cases hrd : (opts.skip_readme && isReadmeName name) = true
          · simp only [if_pos hrd]
            exact ih post st (by omega)
          · simp only [if_neg hrd]
            refine ih post _ ?_
            rcases scanFileStep_count rules st (joinPath rel) bytes with hc | hc <;> omega

theorem scanLoop_blocked_mono (rules : List SecurityRule) (opts : ScanOptions) :
    ∀ (items : List WalkItem) (st : DirScanState),
      st.blocked = true → (scanLoop rules opts st items).blocked = true := by
  intro items
  induction items with
  | nil => exact fun st h => h
  | cons item rest ih =>
      intro st h
      obtain ⟨kind, name, rel⟩ := item
      cases kind with
      | dirEntry => exact ih st h
      | symlinkEntry => exact ih _ rfl
      | fileEntry bytes =>
          show (scanLoop rules opts st (⟨.fileEntry bytes, name, rel⟩ :: rest)).blocked = true
          simp only [scanLoop]
          by_cases hcap : st.files_scanned ≥ MAX_FILES
          · simp only [if_pos hcap]
            exact h
          · simp only [if_neg hcap]
            by_cases hrd : (opts.skip_readme && isReadmeName name) = true
            · simp only [if_pos hrd]
              exact ih st h
            · simp only [if_neg hrd]
              refine ih _ ?_
              obtain ⟨ms, _, hbl⟩ := scanFileStep_fields rules st (joinPath rel) bytes
              rw [hbl, h]
              rfl

theorem scanLoop_hard_prefix (rules : List SecurityRule) (opts : ScanOptions) :
    ∀ (items : List WalkItem) (st : DirScanState),
      ∃ t, (scanLoop rules opts st items).hard_triggers = st.hard_triggers ++ t := by
  intro items
  induction items with
  | nil => exact fun st => ⟨[], (List.append_nil _).symm⟩
  | cons item rest ih =>
      intro st
      obtain ⟨kind, name, rel⟩ := item
      cases kind with
      | dirEntry => exact ih st
      | symlinkEntry =>
          show ∃ t, (scanLoop rules opts st (⟨.symlinkEntry, name, rel⟩ :: rest)).hard_triggers
              = st.hard_triggers ++ t
          simp only [scanLoop]
          obtain ⟨t, ht⟩ := ih
            ⟨st.issues ++ [symlinkIssue (joinPath rel)], st.all_matches, st.scanned_files,
              st.hard_triggers ++
                [hard_trigger_file_issue_msg "SYMLINK" (joinPath rel) symlink_detected_msg],
              st.skipped_files, true, st.partial_scan, st.files_scanned⟩
          exact ⟨[hard_trigger_file_issue_msg "SYMLINK" (joinPath rel) symlink_detected_msg] ++ t,
            by rw [ht]; simp⟩
      | fileEntry bytes =>
          show ∃ t, (scanLoop rules opts st (⟨.fileEntry bytes, name, rel⟩ :: rest)).hard_triggers
              = st.hard_triggers ++ t
          simp only [scanLoop]
          by_cases hcap : st.files_scanned ≥ MAX_FILES
          · simp only [if_pos hcap]
            exact ⟨[], (List.append_nil _).symm⟩
          · simp only [if_neg hcap]
            by_cases hrd : (opts.skip_readme && isReadmeName name) = true
            · simp only [if_pos hrd]
              exact ih st
            · simp only [if_neg hrd]
              obtain ⟨u, hu⟩ := scanFileStep_hard_prefix rules st (joinPath rel) bytes
              obtain ⟨t, ht⟩ := ih (scanFileStep rules st (joinPath rel) bytes)
              exact ⟨u ++ t, by rw [ht, hu, List.append_assoc]⟩

/-- Walk items other than symlinks. -/
def notSymlink (it : WalkItem) : Bool :=
  match it.kind with
  | .symlinkEntry => false
  | _ => true

/-- The same tree with every symlink entry removed. -/
def pruneList : List FsEntry → List FsEntry
  | [] => []
  | .symlink _ :: rest => pruneList rest
  | .file n b :: rest => .file n b :: pruneList rest
  | .dir n es :: rest => .dir n (pruneList es) :: pruneList rest

theorem walkEntries_prune (depth : Nat) (rel : List String) (es : List FsEntry) :
    walkEntries depth rel (pruneList es) = (walkEntries depth rel es).filter notSymlink := by
  induction es using pruneList.induct generalizing depth rel with
  | case1 => simp [pruneList, walkEntries]
  | case2 n rest ih =>
      simp only [pruneList, walkEntries, walkEntry, List.filter_append]
      rw [ih]
      rfl
  | case3 n b rest ih =>
      simp only [pruneList, walkEntries, walkEntry, List.filter_append]
      rw [ih]
      rfl
  | case4 n es' rest ih1 ih2 =>
      simp only [pruneList, walkEntries, walkEntry, List.filter_append]
      rw [ih2]
      by_cases hdesc : (depth + 1 ≤ MAX_SCAN_DEPTH && !(SKIP_DIR_NAMES.contains n)) = true
      · simp only [if_pos hdesc]
        rw [ih1]
        rfl
      · simp only [if_neg hdesc]
        rfl

/-- Two loop states that agree on everything the scanned-files
bookkeeping depends on. -/
def eqScan (s t : DirScanState) : Prop :=
  s.scanned_files = t.scanned_files ∧ s.files_scanned = t.files_scanned ∧
    s.skipped_files = t.skipped_files ∧ s.partial_scan = t.partial_scan

theorem scanFileStep_eqScan (rules : List SecurityRule) {s t : DirScanState}
    (rel : String) (bytes : List Nat) (h : eqScan s t) :
    eqScan (scanFileStep rules s rel bytes) (scanFileStep rules t rel bytes) := by
  obtain ⟨h1, h2, h3, h4⟩ := h
  simp only [scanFileStep]
  split <;> split <;> exact ⟨by simp [h1], by simp [h2], by simp [h3], by simp [h4]⟩

theorem scanLoop_prune_eqScan (rules : List SecurityRule) (opts : ScanOptions) :
    ∀ (items : List WalkItem) (s t : DirScanState), eqScan s t →
      eqScan (scanLoop rules opts s items)
        (scanLoop rules opts t (items.filter notSymlink)) := by
  intro items
  induction items with
  | nil => exact fun s t h => h
  | cons item rest ih =>
      intro s t h
      obtain ⟨kind, name, rel⟩ := item
      cases kind with
      | dirEntry =>
          show eqScan (scanLoop rules opts s (⟨.dirEntry, name, rel⟩ :: rest))
            (scanLoop rules opts t ((⟨.dirEntry, name, rel⟩ :: rest).filter notSymlink))
          rw [List.filter_cons_of_pos (by rfl)]
          exact ih s t h
      | symlinkEntry =>
          show eqScan (scanLoop rules opts s (⟨.symlinkEntry, name, rel⟩ :: rest))
            (scanLoop rules opts t ((⟨.symlinkEntry, name, rel⟩ :: rest).filter notSymlink))
          rw [List.filter_cons_of_neg (by simp [notSymlink])]
          refine ih _ t ⟨h.1, h.2.1, h.2.2.1, h.2.2.2⟩
      | fileEntry bytes =>
          show eqScan (scanLoop rules opts s (⟨.fileEntry bytes, name, rel⟩ :: rest))
            (scanLoop rules opts t ((⟨.fileEntry bytes, name, rel⟩ :: rest).filter notSymlink))
          rw [List.filter_cons_of_pos (by rfl)]
          obtain ⟨h1, h2, h3, h4⟩ := h
          simp only [scanLoop]
          by_cases hcap : s.files_scanned ≥ MAX_FILES
          · have hcap' : t.files_scanned ≥ MAX_FILES := h2 ▸ hcap
            simp only [if_pos hcap, if_pos hcap']
            exact ⟨h1, h2, h3, rfl⟩
          · have hcap' : ¬ t.files_scanned ≥ MAX_FILES := h2 ▸ hcap
            simp only [if_neg hcap, if_neg hcap']
            by_cases hrd : (opts.skip_readme && isReadmeName name) = true
            · simp only [if_pos hrd]
              exact ih s t ⟨h1, h2, h3, h4⟩
            · simp only [if_neg hrd]
              exact ih _ _ (scanFileStep_eqScan rules (joinPath rel) bytes ⟨h1, h2, h3, h4⟩)

theorem walkItems_prune (rootName : String) (entries : List FsEntry) :
    walkItems rootName (pruneList entries) = (walkItems rootName entries).filter notSymlink := by
  unfold walkItems
  rw [List.filter_cons_of_pos (by rfl)]
  by_cases hskip : SKIP_DIR_NAMES.contains rootName = true
  · simp only [if_pos hskip]
    rfl
  · simp only [if_neg hskip]
    rw [walkEntries_prune]

/-- C3: a symlink reached by the bounded traversal (it appears among the
walk items, with at most `MAX_FILES` file entries before it, so that the
file-cap break cannot fire first) makes the directory report
`blocked = true` with a SYMLINK-tagged hard-trigger message naming the
symlink's root-relative path; traversal does not follow the symlink and
does not abort: removing every symlink from the tree leaves the scanned
files, the skipped files and the partial-scan flag unchanged. -/
theorem symlink_blocks (rules : List SecurityRule) (opts : ScanOptions)
    (skill_id rootName : String) (entries : List FsEntry)
    (pre post : List WalkItem) (name : String) (rel : List String)
    (hsplit : walkItems rootName entries = pre ++ ⟨.symlinkEntry, name, rel⟩ :: post)
    (hfit : fileCount pre ≤ MAX_FILES) :
    (scan_dir_report rules opts skill_id rootName entries).blocked = true ∧
    hard_trigger_file_issue_msg "SYMLINK" (joinPath rel) symlink_detected_msg
      ∈ (scan_dir_report rules opts skill_id rootName entries).hard_trigger_issues ∧
    (scan_dir_report rules opts skill_id rootName entries).scanned_files
      = (scan_dir_report rules opts skill_id rootName (pruneList entries)).scanned_files ∧
    (scan_dir_report rules opts skill_id rootName entries).skipped_files
      = (scan_dir_report rules opts skill_id rootName (pruneList entries)).skipped_files ∧
    (scan_dir_report rules opts skill_id rootName entries).partial_scan
      = (scan_dir_report rules opts skill_id rootName (pruneList entries)).partial_scan := by
  have hstate : scan_dir_state rules opts rootName entries
      = scanLoop rules opts
          (scanLoop rules opts initState pre) (⟨.symlinkEntry, name, rel⟩ :: post) := by
    unfold scan_dir_state
    rw [hsplit]
    exact scanLoop_append_of_fits rules opts pre _ initState (by simpa [initState] using hfit)
  have hsym : scanLoop rules opts
      (scanLoop rules opts initState pre) (⟨.symlinkEntry, name, rel⟩ :: post)
      = scanLoop rules opts
          ⟨(scanLoop rules opts initState pre).issues ++ [symlinkIssue (joinPath rel)],
            (scanLoop rules opts initState pre).all_matches,
            (scanLoop rules opts initState pre).scanned_files,
            (scanLoop rules opts initState pre).hard_triggers ++
              [hard_trigger_file_issue_msg "SYMLINK" (joinPath rel) symlink_detected_msg],
            (scanLoop rules opts initState pre).skipped_files, true,
            (scanLoop rules opts initState pre).partial_scan,
            (scanLoop rules opts initState pre).files_scanned⟩ post := rfl
  have hprune : eqScan (scan_dir_state rules opts rootName entries)
      (scan_dir_state rules opts rootName (pruneList entries)) := by
    unfold scan_dir_state
    rw [walkItems_prune]
    exact scanLoop_prune_eqScan rules opts (walkItems rootName entries) initState initState
      ⟨rfl, rfl, rfl, rfl⟩
  refine ⟨?_, ?_, hprune.1, hprune.2.2.1, hprune.2.2.2⟩
  · show (scan_dir_state rules opts rootName entries).blocked = true
    rw [hstate, hsym]
    exact scanLoop_blocked_mono rules opts post _ rfl
  · show _ ∈ (scan_dir_state rules opts rootName entries).hard_triggers
    rw [hstate, hsym]
    obtain ⟨t, ht⟩ := scanLoop_hard_prefix rules opts post _
    rw [ht]
    refine List.mem_append_left _ ?_
    exact List.mem_append_right _ (List.mem_singleton.mpr rfl)

/-- A directory with a symlink next to a script. -/
def c3entries : List FsEntry :=
  [.symlink "link", .file "a.sh" (strBytes "echo hi")]

/-- Witness for `symlink_blocks` at a concrete tree. -/
theorem symlink_blocks_witness :
    (walkItems "root" c3entries
        = [⟨.dirEntry, "root", []⟩] ++ ⟨.symlinkEntry, "link", ["link"]⟩ ::
            [⟨.fileEntry (strBytes "echo hi"), "a.sh", ["a.sh"]⟩] ∧
      fileCount [⟨.dirEntry, "root", []⟩] ≤ MAX_FILES) ∧
    (scan_dir_report [] defaultScanOptions "sid" "root" c3entries).blocked = true ∧
    hard_trigger_file_issue_msg "SYMLINK" (joinPath ["link"]) symlink_detected_msg
      ∈ (scan_dir_report [] defaultScanOptions "sid" "root" c3entries).hard_trigger_issues := by
  have h := symlink_blocks [] defaultScanOptions "sid" "root" c3entries
    [⟨.dirEntry, "root", []⟩] [⟨.fileEntry (strBytes "echo hi"), "a.sh", ["a.sh"]⟩]
    "link" ["link"] (by decide) (by decide)
  exact ⟨⟨by decide, by decide⟩, h.1, h.2.1⟩

/-- A file the scan loop counts: not skipped as a readme, not truncated,
and accepted by the content decision (so neither binary-skipped nor
unreadable). -/
def file_eligible (opts : ScanOptions) (name : String) (bytes : List Nat) : Bool :=
  !(opts.skip_readme && isReadmeName name) &&
    decide (bytes.length ≤ MAX_BYTES_PER_FILE) && (decode_content bytes).isSome

/-- Every file entry of the item list is eligible (directories and
symlinks impose nothing). -/
def itemOkB (opts : ScanOptions) (it : WalkItem) : Bool :=
  match it.kind with
  | .fileEntry bytes => file_eligible opts it.name bytes
  | _ => true

theorem scanFileStep_eligible (rules : List SecurityRule) (st : DirScanState)
    (rel : String) (bytes : List Nat)
    (h1 : bytes.length ≤ MAX_BYTES_PER_FILE)
    (h2 : (decode_content bytes).isSome = true) :
    (scanFileStep rules st rel bytes).partial_scan = st.partial_scan ∧
      (scanFileStep rules st rel bytes).files_scanned = st.files_scanned + 1 ∧
      (scanFileStep rules st rel bytes).scanned_files = st.scanned_files ++ [rel] ∧
      (scanFileStep rules st rel bytes).skipped_files = st.skipped_files := by
  have hbuf : bytes.take (MAX_BYTES_PER_FILE + 1) = bytes :=
    List.take_of_length_le (by omega)
  have htr : decide (MAX_BYTES_PER_FILE < bytes.length) = false := by
    simpa using h1
  obtain ⟨c, hc⟩ := Option.isSome_iff_exists.mp h2
  simp only [scanFileStep, hbuf, htr, Bool.false_eq_true, if_false, hc]
  refine ⟨?_, ?_, ?_, ?_⟩ <;> simp

theorem scanLoop_all_fit (rules : List SecurityRule) (opts : ScanOptions) :
    ∀ (items : List WalkItem) (st : DirScanState),
      (∀ it ∈ items, itemOkB opts it = true) →
      st.files_scanned + fileCount items ≤ MAX_FILES →
      (scanLoop rules opts st items).partial_scan = st.partial_scan ∧
        (scanLoop rules opts st items).files_scanned = st.files_scanned + fileCount items ∧
        (scanLoop rules opts st items).scanned_files.length
          = st.scanned_files.length + fileCount items ∧
        (scanLoop rules opts st items).skipped_files = st.skipped_files := by
  intro items
  induction items with
  | nil =>
      exact fun st _ _ =>
        ⟨rfl, by simp [fileCount, scanLoop], by simp [fileCount, scanLoop], rfl⟩
  | cons item rest ih =>
      intro st hok hfit
      obtain ⟨kind, name, rel⟩ := item
      have hok' : ∀ it ∈ rest, itemOkB opts it = true :=
        fun it hit => hok it (List.mem_cons_of_mem _ hit)
      cases kind with
      | dirEntry =>
          have hfc : fileCount (⟨WalkKind.dirEntry, name, rel⟩ :: rest) = fileCount rest := by
            simp [fileCount]
          rw [hfc] at hfit ⊢
          exact ih st hok' hfit
      | symlinkEntry =>
          have hfc : fileCount (⟨WalkKind.symlinkEntry, name, rel⟩ :: rest)
              = fileCount rest := by
            simp [fileCount]
          rw [hfc] at hfit ⊢
          exact ih _ hok' hfit
      | fileEntry bytes =>
          have hfc : fileCount (⟨WalkKind.fileEntry bytes, name, rel⟩ :: rest)
              = fileCount rest + 1 := by
            simp [fileCount]
          rw [hfc] at hfit ⊢
          have helig : file_eligible opts name bytes = true :=
            hok ⟨.fileEntry bytes, name, rel⟩ (List.mem_cons_self _ _)
          rw [file_eligible, Bool.and_eq_true, Bool.and_eq_true] at helig
          obtain ⟨⟨hnotrd, hlen⟩, hdec⟩ := helig
          have hrdf : (opts.skip_readme && isReadmeName name) = false := by
            cases hx : (opts.skip_readme && isReadmeName name)
            · rfl
            · rw [hx] at hnotrd
              exact absurd hnotrd (by decide)
          show (scanLoop rules opts st (⟨.fileEntry bytes, name, rel⟩ :: rest)).partial_scan = _ ∧ _
          simp only [scanLoop]
          rw [if_neg (by omega : ¬ st.files_scanned ≥ MAX_FILES)]
          rw [if_neg (by simp [hrdf])]
          obtain ⟨hp, hf, hs, hk⟩ := scanFileStep_eligible rules st (joinPath rel) bytes
            (of_decide_eq_true hlen) hdec
          obtain ⟨ihp, ihf, ihs, ihk⟩ := ih (scanFileStep rules st (joinPath rel) bytes) hok'
            (by omega)
          refine ⟨by rw [ihp, hp], by rw [ihf, hf]; omega, ?_, by rw [ihk, hk]⟩
          rw [ihs, hs]
          simp
          omega

theorem scanLoop_overflow (rules : List SecurityRule) (opts : ScanOptions) :
    ∀ (items : List WalkItem) (st : DirScanState),
      (∀ it ∈ items, itemOkB opts it = true) →
      st.files_scanned ≤ MAX_FILES →
      MAX_FILES < st.files_scanned + fileCount items →
      (scanLoop rules opts st items).partial_scan = true ∧
        (scanLoop rules opts st items).scanned_files.length
          = st.scanned_files.length + (MAX_FILES - st.files_scanned) ∧
        capWarningIssue ∈ (scanLoop rules opts st items).issues := by
  intro items
  induction items with
  | nil =>
      intro st _ hle hover
      simp [fileCount] at hover
      omega
  | cons item rest ih =>
      intro st hok hle hover
      obtain ⟨kind, name, rel⟩ := item
      have hok' : ∀ it ∈ rest, itemOkB opts it = true :=
        fun it hit => hok it (List.mem_cons_of_mem _ hit)
      cases kind with
      | dirEntry =>
          have hfc : fileCount (⟨WalkKind.dirEntry, name, rel⟩ :: rest) = fileCount rest := by
            simp [fileCount]
          rw [hfc] at hover
          exact ih st hok' hle hover
      | symlinkEntry =>
          have hfc : fileCount (⟨WalkKind.symlinkEntry, name, rel⟩ :: rest)
              = fileCount rest := by
            simp [fileCount]
          rw [hfc] at hover
          exact ih _ hok' hle hover
      | fileEntry bytes =>
          have hfc : fileCount (⟨WalkKind.fileEntry bytes, name, rel⟩ :: rest)
              = fileCount rest + 1 := by
            simp [fileCount]
          rw [hfc] at hover
          show (scanLoop rules opts st (⟨.fileEntry bytes, name, rel⟩ :: rest)).partial_scan
              = true ∧ _
          simp only [scanLoop]
          by_cases hcap : st.files_scanned ≥ MAX_FILES
          · have heq : st.files_scanned = MAX_FILES := by omega
            simp only [if_pos hcap]
            refine ⟨by trivial, by simp [heq], ?_⟩
            exact List.mem_append_right _ (List.mem_singleton.mpr rfl)
          · simp only [if_neg hcap]
            have helig : file_eligible opts name bytes = true :=
              hok ⟨.fileEntry bytes, name, rel⟩ (List.mem_cons_self _ _)
            rw [file_eligible, Bool.and_eq_true, Bool.and_eq_true] at helig
            obtain ⟨⟨hnotrd, hlen⟩, hdec⟩ := helig
            have hrdf : (opts.skip_readme && isReadmeName name) = false := by
              cases hx : (opts.skip_readme && isReadmeName name)
              · rfl
              · rw [hx] at hnotrd
                exact absurd hnotrd (by decide)
            rw [if_neg (by simp [hrdf])]
            obtain ⟨hp, hf, hs, _⟩ := scanFileStep_eligible rules st (joinPath rel) bytes
              (of_decide_eq_true hlen) hdec
            obtain ⟨ihp, ihs, ihc⟩ := ih (scanFileStep rules st (joinPath rel) bytes) hok'
              (by omega) (by omega)
            refine ⟨ihp, ?_, ihc⟩
            rw [ihs, hs, hf]
            simp
            omega

/-- C4: with every file entry eligible, a directory tree with exactly
`MAX_FILES` (2000) files is scanned completely with
`partial_scan = false`; with `MAX_FILES + 1` files the scan stops
enumerating (exactly `MAX_FILES` files scanned), records the Warning
issue, sets `partial_scan = true`, and still returns `Ok` with a usable
report. -/
theorem file_cap_boundary (rules : List SecurityRule) (opts : ScanOptions)
    (skill_id rootName : String) (entries : List FsEntry)
    (hok : ∀ it ∈ walkItems rootName entries, itemOkB opts it = true) :
    (fileCount (walkItems rootName entries) = MAX_FILES →
      (scan_dir_report rules opts skill_id rootName entries).partial_scan = false ∧
        (scan_dir_report rules opts skill_id rootName entries).scanned_files.length
          = MAX_FILES) ∧
    (fileCount (walkItems rootName entries) = MAX_FILES + 1 →
      scan_directory_with_options rules opts skill_id (.dir rootName entries)
          = .ok (scan_dir_report rules opts skill_id rootName entries) ∧
        (scan_dir_report rules opts skill_id rootName entries).partial_scan = true ∧
        (scan_dir_report rules opts skill_id rootName entries).scanned_files.length
          = MAX_FILES ∧
        capWarningIssue ∈ (scan_dir_report rules opts skill_id rootName entries).issues) := by
  constructor
  · intro hcount
    obtain ⟨hp, _, hs, _⟩ := scanLoop_all_fit rules opts (walkItems rootName entries)
      initState hok (by simp [initState, hcount])
    refine ⟨hp, ?_⟩
    show (scan_dir_state rules opts rootName entries).scanned_files.length = MAX_FILES
    rw [show (scan_dir_state rules opts rootName entries).scanned_files
        = (scanLoop rules opts initState (walkItems rootName entries)).scanned_files from rfl]
    rw [hs, hcount]
    rfl
  · intro hcount
    obtain ⟨hp, hs, hc⟩ := scanLoop_overflow rules opts (walkItems rootName entries)
      initState hok (by simp [initState, MAX_FILES]) (by rw [hcount]; simp [initState])
    refine ⟨scan_directory_ok rules opts skill_id rootName entries, hp, ?_, hc⟩
    show (scan_dir_state rules opts rootName entries).scanned_files.length = MAX_FILES
    rw [show (scan_dir_state rules opts rootName entries).scanned_files
        = (scanLoop rules opts initState (walkItems rootName entries)).scanned_files from rfl]
    rw [hs]
    rfl

/-- A flat directory of `n` identical eligible files. -/
def c4entries (n : Nat) : List FsEntry :=
  List.replicate n (.file "a" (strBytes "hi"))

theorem walkEntries_replicate_file (depth : Nat) (rel : List String) (n : Nat)
    (name : String) (bytes : List Nat) :
    walkEntries depth rel (List.replicate n (.file name bytes))
      = List.replicate n ⟨.fileEntry bytes, name, rel ++ [name]⟩ := by
  induction n with
  | zero => rfl
  | succ k ih =>
      rw [List.replicate_succ, List.replicate_succ]
      show walkEntry depth rel (.file name bytes) ++ _ = _
      rw [ih]
      rfl

theorem c4items (n : Nat) :
    walkItems "root" (c4entries n)
      = ⟨.dirEntry, "root", []⟩ ::
          List.replicate n ⟨.fileEntry (strBytes "hi"), "a", ["a"]⟩ := by
  unfold walkItems c4entries
  rw [if_neg (by decide), walkEntries_replicate_file]
  rfl

theorem fileCount_replicate_file (n : Nat) (bytes : List Nat) (name : String)
    (rel : List String) :
    fileCount (List.replicate n ⟨.fileEntry bytes, name, rel⟩) = n := by
  induction n with
  | zero => rfl
  | succ k ih =>
      rw [List.replicate_succ]
      show fileCount (⟨WalkKind.fileEntry bytes, name, rel⟩ :: List.replicate k _) = _
      simp only [fileCount] at ih ⊢
      rw [List.filter_cons_of_pos (by rfl), List.length_cons, ih]

theorem c4items_ok (n : Nat) :
    ∀ it ∈ walkItems "root" (c4entries n), itemOkB defaultScanOptions it = true := by
  intro it hit
  rw [c4items] at hit
  rcases List.mem_cons.mp hit with rfl | hmem
  · rfl
  · rw [List.eq_of_mem_replicate hmem]
    decide

theorem c4items_count (n : Nat) : fileCount (walkItems "root" (c4entries n)) = n := by
  rw [c4items]
  show fileCount (⟨WalkKind.dirEntry, "root", []⟩ :: _) = n
  simp only [fileCount, List.filter_cons]
  exact fileCount_replicate_file n _ _ _

/-- Witness for `file_cap_boundary` at 2000 and 2001 files. -/
theorem file_cap_boundary_witness :
    (∀ it ∈ walkItems "root" (c4entries 2000), itemOkB defaultScanOptions it = true) ∧
    ((scan_dir_report [] defaultScanOptions "sid" "root" (c4entries 2000)).partial_scan
        = false ∧
      (scan_dir_report [] defaultScanOptions "sid" "root"
          (c4entries 2000)).scanned_files.length = MAX_FILES) ∧
    ((scan_dir_report [] defaultScanOptions "sid" "root" (c4entries 2001)).partial_scan
        = true ∧
      (scan_dir_report [] defaultScanOptions "sid" "root"
          (c4entries 2001)).scanned_files.length = MAX_FILES ∧
      capWarningIssue
        ∈ (scan_dir_report [] defaultScanOptions "sid" "root" (c4entries 2001)).issues) := by
  have h2000 := file_cap_boundary [] defaultScanOptions "sid" "root" (c4entries 2000)
    (c4items_ok 2000)
  have h2001 := file_cap_boundary [] defaultScanOptions "sid" "root" (c4entries 2001)
    (c4items_ok 2001)
  obtain ⟨_, hp1, hl1, hc1⟩ := h2001.2 (c4items_count 2001)
  exact ⟨c4items_ok 2000, h2000.1 (c4items_count 2000), hp1, hl1, hc1⟩

/-- C5 counterexample: the buffer `FF FE 01 00` is classified as UTF-16
by BOM; its decoded text (a single control character `U+0001`) fails
`is_likely_text`, yet it is accepted as text — the file is scanned, not
treated as binary and skipped, contradicting the claim that every UTF-16
candidate must independently look like text. -/
theorem utf16_acceptance_counterexample :
    detect_utf16_encoding [255, 254, 1, 0] = some (.littleEndian, 2) ∧
    is_likely_text (decode_utf16 [255, 254, 1, 0] .littleEndian 2) = false ∧
    decode_content [255, 254, 1, 0]
      = some (decode_utf16 [255, 254, 1, 0] .littleEndian 2) ∧
    (scan_dir_report [] defaultScanOptions "sid" "root"
        [.file "u16.txt" [255, 254, 1, 0]]).skipped_files = [] ∧
    (scan_dir_report [] defaultScanOptions "sid" "root"
        [.file "u16.txt" [255, 254, 1, 0]]).scanned_files = ["u16.txt"] := by
  refine ⟨by decide, by decide, by decide, by decide, by decide⟩

theorem decode_content_of_detect (buf : List Nat) (enc : Utf16Encoding) (off : Nat)
    (hdet : detect_utf16_encoding buf = some (enc, off)) :
    decode_content buf
      = (if off > 0 || is_likely_text (decode_utf16 buf enc off) then
          some (decode_utf16 buf enc off)
         else if buf.contains 0 then none else some (from_utf8_lossy buf)) := by
  unfold decode_content
  rw [hdet]
  by_cases hacc : (off > 0 || is_likely_text (decode_utf16 buf enc off)) = true
  · rw [if_pos hacc]
    simp only [hacc, if_true]
  · rw [if_neg hacc]
    simp only [Bool.not_eq_true] at hacc
    simp only [hacc, Bool.false_eq_true, if_false]

theorem detect_branches (buf : List Nat) (enc : Utf16Encoding) (off : Nat)
    (hdet : detect_utf16_encoding buf = some (enc, off)) :
    (off = 2 ∧ (buf.take 2 = [0xFF, 0xFE] ∨ buf.take 2 = [0xFE, 0xFF])) ∨
      (off = 0 ∧ buf.take 2 ≠ [0xFF, 0xFE] ∧ buf.take 2 ≠ [0xFE, 0xFF] ∧
        4 ≤ min buf.length 4096 ∧
        min buf.length 4096 ≤
          10 * ((buf.take (min buf.length 4096)).filter (fun b => b = 0)).length) := by
  simp only [detect_utf16_encoding] at hdet
  split_ifs at hdet with h1 h2 h3 h4 h5 h6 h7
  · have h := Option.some.inj hdet
    rw [Prod.mk.injEq] at h
    exact Or.inl ⟨h.2.symm, Or.inl h2⟩
  · have h := Option.some.inj hdet
    rw [Prod.mk.injEq] at h
    exact Or.inl ⟨h.2.symm, Or.inr h3⟩
  · have h := Option.some.inj hdet
    rw [Prod.mk.injEq] at h
    exact Or.inr ⟨h.2.symm, h2, h3, by omega, by omega⟩
  · have h := Option.some.inj hdet
    rw [Prod.mk.injEq] at h
    exact Or.inr ⟨h.2.symm, h2, h3, by omega, by omega⟩

theorem contains_zero_of_stat (buf : List Nat)
    (h4 : 4 ≤ min buf.length 4096)
    (h5 : min buf.length 4096 ≤
      10 * ((buf.take (min buf.length 4096)).filter (fun b => b = 0)).length) :
    buf.contains 0 = true := by
  have htz : 0 < ((buf.take (min buf.length 4096)).filter (fun b => b = 0)).length := by
    omega
  obtain ⟨b, hb⟩ := List.exists_mem_of_length_pos htz
  obtain ⟨hbt, hbz⟩ := List.mem_filter.mp hb
  have hbuf : b ∈ buf := List.mem_of_mem_take hbt
  have hz : b = 0 := of_decide_eq_true hbz
  subst hz
  exact List.elem_eq_true_of_mem hbuf

/-- C5 amended: only a buffer classified as UTF-16 by the statistical
null-byte analysis (`offset = 0`) must independently look like text
(`is_likely_text`: control ratio < 0.02 and replacement ratio < 0.05 over
a capped sample) to be accepted — when it does not, the file is treated
as binary and skipped; a buffer classified by BOM (`offset = 2`) is
accepted as text unconditionally. -/
theorem utf16_acceptance_amended (buf : List Nat) (enc : Utf16Encoding) (off : Nat)
    (nm : String) (hdet : detect_utf16_encoding buf = some (enc, off)) :
    (0 < off ↔ buf.take 2 = [0xFF, 0xFE] ∨ buf.take 2 = [0xFE, 0xFF]) ∧
    (0 < off → decode_content buf = some (decode_utf16 buf enc off)) ∧
    (off = 0 → is_likely_text (decode_utf16 buf enc 0) = true →
      decode_content buf = some (decode_utf16 buf enc 0)) ∧
    (off = 0 → is_likely_text (decode_utf16 buf enc 0) = false →
      decode_content buf = none) ∧
    (off = 0 → is_likely_text (decode_utf16 buf enc 0) = false →
      buf.length ≤ MAX_BYTES_PER_FILE →
      ∀ rules : List SecurityRule,
        (scan_dir_report rules defaultScanOptions "sid" "root"
            [.file nm buf]).skipped_files = [nm] ∧
        (scan_dir_report rules defaultScanOptions "sid" "root"
            [.file nm buf]).partial_scan = true) := by
  have hbr := detect_branches buf enc off hdet
  have hreject : off = 0 → is_likely_text (decode_utf16 buf enc 0) = false →
      decode_content buf = none := by
    intro hoff hnl
    subst hoff
    rw [decode_content_of_detect buf enc 0 hdet]
    rw [if_neg (by simp [hnl])]
    rcases hbr with ⟨h2, _⟩ | ⟨_, _, _, h4, h5⟩
    · exact absurd h2 (by omega)
    · rw [if_pos (contains_zero_of_stat buf h4 h5)]
  refine ⟨?_, ?_, ?_, hreject, ?_⟩
  · constructor
    · intro hoff
      rcases hbr with ⟨_, hbom⟩ | ⟨h0, _⟩
      · exact hbom
      · omega
    · intro hbom
      rcases hbr with ⟨h2, _⟩ | ⟨_, hne1, hne2, _⟩
      · omega
      · rcases hbom with hb | hb
        · exact absurd hb hne1
        · exact absurd hb hne2
  · intro hoff
    rw [decode_content_of_detect buf enc off hdet]
    rw [if_pos (by simp [hoff])]
  · intro hoff hlt
    subst hoff
    rw [decode_content_of_detect buf enc 0 hdet]
    rw [if_pos (by simp [hlt])]
  · intro hoff hnl hlen rules
    have hnone := hreject hoff hnl
    have hwalk : walkItems "root" [.file nm buf]
        = [⟨.dirEntry, "root", []⟩, ⟨.fileEntry buf, nm, [nm]⟩] := by
      unfold walkItems
      rw [if_neg (by decide)]
      rfl
    have hbuf2 : buf.take (MAX_BYTES_PER_FILE + 1) = buf :=
      List.take_of_length_le (by omega)
    have htr : decide (MAX_BYTES_PER_FILE < buf.length) = false := by
      simpa using hlen
    have hstep : scanFileStep rules initState (joinPath [nm]) buf
        = { initState with
            skipped_files := initState.skipped_files ++ [nm]
            partial_scan := true } := by
      simp only [scanFileStep, hbuf2, htr, Bool.false_eq_true, if_false, hnone]
      rfl
    constructor
    · show (scan_dir_state rules defaultScanOptions "root" [.file nm buf]).skipped_files = [nm]
      unfold scan_dir_state
      rw [hwalk]
      simp only [scanLoop]
      rw [if_neg (by decide), if_neg (by simp [defaultScanOptions])]
      rw [hstep]
      rfl
    · show (scan_dir_state rules defaultScanOptions "root" [.file nm buf]).partial_scan = true
      unfold scan_dir_state
      rw [hwalk]
      simp only [scanLoop]
      rw [if_neg (by decide), if_neg (by simp [defaultScanOptions])]
      rw [hstep]

/-- Witness for `utf16_acceptance_amended` at a statistically detected
UTF-16LE buffer. -/
theorem utf16_acceptance_amended_witness :
    detect_utf16_encoding [65, 0, 66, 0] = some (.littleEndian, 0) ∧
    ((0 < 0 ↔ [65, 0, 66, 0].take 2 = [0xFF, 0xFE] ∨ [65, 0, 66, 0].take 2 = [0xFE, 0xFF]) ∧
      (0 < 0 → decode_content [65, 0, 66, 0]
        = some (decode_utf16 [65, 0, 66, 0] .littleEndian 0)) ∧
      ((0 : Nat) = 0 → is_likely_text (decode_utf16 [65, 0, 66, 0] .littleEndian 0) = true →
        decode_content [65, 0, 66, 0]
          = some (decode_utf16 [65, 0, 66, 0] .littleEndian 0)) ∧
      ((0 : Nat) = 0 → is_likely_text (decode_utf16 [65, 0, 66, 0] .littleEndian 0) = false →
        decode_content [65, 0, 66, 0] = none) ∧
      ((0 : Nat) = 0 → is_likely_text (decode_utf16 [65, 0, 66, 0] .littleEndian 0) = false →
        [65, 0, 66, 0].length ≤ MAX_BYTES_PER_FILE →
        ∀ rules : List SecurityRule,
          (scan_dir_report rules defaultScanOptions "sid" "root"
              [.file "w.bin" [65, 0, 66, 0]]).skipped_files = ["w.bin"] ∧
          (scan_dir_report rules defaultScanOptions "sid" "root"
              [.file "w.bin" [65, 0, 66, 0]]).partial_scan = true)) :=
  ⟨by decide,
    utf16_acceptance_amended [65, 0, 66, 0] .littleEndian 0 "w.bin" (by decide)⟩

/-- `plugin_manager.rs::CommandOutcome`. -/
structure CommandOutcome where
  success : Bool
  already : Bool
deriving DecidableEq, Repr

/-- The explicit failure vocabulary shared by the output parsers
(`has_error` in `plugin_manager.rs`). -/
def cliHasErrorVocab (text : String) : Bool :=
  str_contains text "error" || str_contains text "failed" ||
    str_contains text "failure" || str_contains text "unable to" ||
    str_contains text "could not"

/-- The already-present test of `parse_marketplace_add_output`. -/
def marketplaceAlready (text : String) : Bool :=
  str_contains text "already" &&
    (str_contains text "marketplace" || str_contains text "exists" ||
      str_contains text "added" || str_contains text "installed")

/-- `plugin_manager.rs::parse_marketplace_add_output`: the already-present
test comes first and short-circuits to success even when failure
vocabulary is present (the source comments the Claude CLI's
"Failed to add: already installed" output as the reason). -/
def parse_marketplace_add_output (output : String) : CommandOutcome :=
  let text := asciiLowercase output
  if marketplaceAlready text then ⟨true, true⟩
  else
    let has_error := cliHasErrorVocab text
    let success := !has_error &&
      (str_contains text "marketplace added" || str_contains text "added marketplace" ||
        str_contains text "successfully added" ||
        (str_contains text "marketplace" && str_contains text "added" &&
          !str_contains text "not added"))
    ⟨success, false⟩

/-- `plugin_manager.rs::parse_plugin_install_output`: failure vocabulary
always wins; the `already` flag is reported independently. -/
def parse_plugin_install_output (output : String) : CommandOutcome :=
  let text := asciiLowercase output
  let has_error := cliHasErrorVocab text
  let not_installed := str_contains text "not installed" || str_contains text "not found"
  let already := str_contains text "already installed" || str_contains text "already exists"
  let success := !has_error && !not_installed &&
    (already || str_contains text "successfully installed" ||
      str_contains text "installation complete" || str_contains text "install success" ||
      str_contains text "plugin installed" ||
      (str_contains text "installed" && !str_contains text "not installed" &&
        !str_contains text "isn't installed"))
  ⟨success, already⟩

theorem containsAux_iff (p : List Char) (h : List Char) :
    containsAux p h = true ↔ p <:+: h := by
  induction h with
  | nil =>
      show (p.isPrefixOf []) = true ↔ _
      rw [List.isPrefixOf_iff_prefix]
      constructor
      · intro hp
        exact hp.isInfix
      · intro hi
        exact (List.eq_nil_of_infix_nil hi) ▸ List.prefix_rfl
  | cons c t ih =>
      show (p.isPrefixOf (c :: t) || containsAux p t) = true ↔ _
      rw [Bool.or_eq_true, List.isPrefixOf_iff_prefix, ih, List.infix_cons_iff]

theorem str_contains_iff (s p : String) :
    str_contains s p = true ↔ p.data <:+: s.data :=
  containsAux_iff p.data s.data

theorem str_contains_trans {a b c : String} (h1 : str_contains a b = true)
    (h2 : str_contains b c = true) : str_contains a c = true := by
  rw [str_contains_iff] at h1 h2 ⊢
  exact h2.trans h1

/-- C6 counterexample: the marketplace-add parser maps
"Failed to add: already installed" to success although explicit failure
vocabulary ("failed") is present — the already-phrasing takes precedence
there, so failure vocabulary does not always mark the command as
failed. -/
theorem outcome_classification_counterexample :
    cliHasErrorVocab (asciiLowercase "Failed to add: already installed") = true ∧
    parse_marketplace_add_output "Failed to add: already installed"
      = ⟨true, true⟩ := by
  exact ⟨by decide, by decide⟩

/-- C6 amended: for plugin-install output the failure vocabulary
("error", "failed", "failure", "unable to", "could not") always marks
the command as failed; for marketplace-add output the
already-added/exists phrasing takes precedence and maps to success with
the `already` flag even when failure vocabulary is present, and
otherwise failure vocabulary marks failure there too; in both parsers,
when no recognized vocabulary is present the command is classified as
failed (fail-closed). -/
theorem outcome_classification_amended (s : String) :
    (cliHasErrorVocab (asciiLowercase s) = true →
      (parse_plugin_install_output s).success = false) ∧
    ((parse_plugin_install_output s).success = true →
      str_contains (asciiLowercase s) "install" = true ∨
        str_contains (asciiLowercase s) "already exists" = true) ∧
    (marketplaceAlready (asciiLowercase s) = true →
      parse_marketplace_add_output s = ⟨true, true⟩) ∧
    (marketplaceAlready (asciiLowercase s) = false →
      cliHasErrorVocab (asciiLowercase s) = true →
      (parse_marketplace_add_output s).success = false) ∧
    ((parse_marketplace_add_output s).success = true →
      str_contains (asciiLowercase s) "added" = true ∨
        marketplaceAlready (asciiLowercase s) = true) := by
  refine ⟨?_, ?_, ?_, ?_, ?_⟩
  · intro herr
    show (!cliHasErrorVocab (asciiLowercase s) && _ && _) = false
    rw [herr]
    rfl
  · intro hsucc
    have h3 : (str_contains (asciiLowercase s) "already installed" ||
        str_contains (asciiLowercase s) "already exists" ||
        str_contains (asciiLowercase s) "successfully installed" ||
        str_contains (asciiLowercase s) "installation complete" ||
        str_contains (asciiLowercase s) "install success" ||
        str_contains (asciiLowercase s) "plugin installed" ||
        (str_contains (asciiLowercase s) "installed" &&
          !str_contains (asciiLowercase s) "not installed" &&
          !str_contains (asciiLowercase s) "isn't installed")) = true := by
      have hs : (parse_plugin_install_output s).success
          = (!cliHasErrorVocab (asciiLowercase s) &&
            !(str_contains (asciiLowercase s) "not installed" ||
              str_contains (asciiLowercase s) "not found") &&
            ((str_contains (asciiLowercase s) "already installed" ||
              str_contains (asciiLowercase s) "already exists") ||
              str_contains (asciiLowercase s) "successfully installed" ||
              str_contains (asciiLowercase s) "installation complete" ||
              str_contains (asciiLowercase s) "install success" ||
              str_contains (asciiLowercase s) "plugin installed" ||
              (str_contains (asciiLowercase s) "installed" &&
                !str_contains (asciiLowercase s) "not installed" &&
                !str_contains (asciiLowercase s) "isn't installed"))) := rfl
      rw [hs] at hsucc
      rcases Bool.and_eq_true_iff.mp hsucc with ⟨_, h⟩
      simpa [Bool.or_assoc] using h
    rcases Bool.or_eq_true_iff.mp h3 with h | hlast
    rcases Bool.or_eq_true_iff.mp h with h | hplug
    rcases Bool.or_eq_true_iff.mp h with h | hins
    rcases Bool.or_eq_true_iff.mp h with h | hic
    rcases Bool.or_eq_true_iff.mp h with h | hsi
    rcases Bool.or_eq_true_iff.mp h with hai | hae
    · exact Or.inl (str_contains_trans hai (by decide))
    · exact Or.inr hae
    · exact Or.inl (str_contains_trans hsi (by decide))
    · exact Or.inl (str_contains_trans hic (by decide))
    · exact Or.inl (str_contains_trans hins (by decide))
    · exact Or.inl (str_contains_trans hplug (by decide))
    · exact Or.inl (str_contains_trans (Bool.and_eq_true_iff.mp
        (Bool.and_eq_true_iff.mp hlast).1).1 (by decide))
  · intro halready
    show (if marketplaceAlready (asciiLowercase s) then _ else _) = _
    rw [if_pos halready]
  · intro halready herr
    show (if marketplaceAlready (asciiLowercase s) then
        (⟨true, true⟩ : CommandOutcome) else _).success = false
    rw [if_neg (by simp [halready])]
    show (!cliHasErrorVocab (asciiLowercase s) && _) = false
    rw [herr]
    rfl
  · intro hsucc
    by_cases halready : marketplaceAlready (asciiLowercase s) = true
    · exact Or.inr halready
    · refine Or.inl ?_
      have hs : (parse_marketplace_add_output s).success
          = (!cliHasErrorVocab (asciiLowercase s) &&
            (str_contains (asciiLowercase s) "marketplace added" ||
              str_contains (asciiLowercase s) "added marketplace" ||
              str_contains (asciiLowercase s) "successfully added" ||
              (str_contains (asciiLowercase s) "marketplace" &&
                str_contains (asciiLowercase s) "added" &&
                !str_contains (asciiLowercase s) "not added"))) := by
        show (if marketplaceAlready (asciiLowercase s) then
            (⟨true, true⟩ : CommandOutcome) else _).success = _
        rw [if_neg halready]
      rw [hs] at hsucc
      rcases Bool.and_eq_true_iff.mp hsucc with ⟨_, h⟩
      rcases Bool.or_eq_true_iff.mp h with h | hconj
      rcases Bool.or_eq_true_iff.mp h with h | hsa
      rcases Bool.or_eq_true_iff.mp h with hma | ham
      · exact str_contains_trans hma (by decide)
      · exact str_contains_trans ham (by decide)
      · exact str_contains_trans hsa (by decide)
      · exact (Bool.and_eq_true_iff.mp (Bool.and_eq_true_iff.mp hconj).1).2

/-- Witness for `outcome_classification_amended` at concrete CLI
outputs. -/
theorem outcome_classification_amended_witness :
    ((parse_plugin_install_output "Error: network").success = false) ∧
    (parse_marketplace_add_output "Failed: marketplace already exists" = ⟨true, true⟩) ∧
    ((parse_marketplace_add_output "could not resolve repo").success = false) := by
  refine ⟨?_, ?_, ?_⟩
  · exact (outcome_classification_amended "Error: network").1 (by decide)
  · exact (outcome_classification_amended
      "Failed: marketplace already exists").2.2.1 (by decide)
  · exact (outcome_classification_amended "could not resolve repo").2.2.2.1
      (by decide) (by decide)

/-- `models/plugin.rs::Plugin`.  `DateTime<Utc>` values are modelled as
integer timestamps. -/
structure Plugin where
  id : String
  claude_id : Option String
  name : String
  description : Option String
  version : Option String
  installed_version : Option String
  author : Option String
  repository_url : String
  repository_owner : Option String
  marketplace_name : String
  source : String
  discovery_source : Option String
  marketplace_add_command : Option String
  plugin_install_command : Option String
  installed : Bool
  installed_at : Option Int
  claude_scope : Option String
  claude_enabled : Option Bool
  claude_install_path : Option String
  claude_last_updated : Option Int
  security_score : Option Int
  security_issues : Option (List String)
  security_level : Option String
  scanned_at : Option Int
  staging_path : Option String
  install_log : Option String
  install_status : Option String
deriving DecidableEq, Repr

/-- `plugin_manager.rs::merge_reports`: one report per marketplace,
namespacing every path and hard-trigger message with the owning plugin's
name.  The source's single loop is written as one fold per accumulator;
the `HashSet` of recommendations is modelled as first-occurrence
insertion. -/
def merge_reports (reports : List (Plugin × SecurityReport)) (marketplace_name : String) :
    SecurityReport :=
  let score := reports.foldl (fun sc pr => if pr.2.score < sc then pr.2.score else sc) 100
  let blocked := reports.foldl (fun b pr => b || pr.2.blocked) false
  let partialFlag := reports.foldl (fun b pr => b || pr.2.partial_scan) false
  let issues := reports.bind (fun pr => pr.2.issues.map (fun i =>
    { i with file_path := i.file_path.map (fun p => pr.1.name ++ "/" ++ p) }))
  let scanned := reports.bind (fun pr =>
    pr.2.scanned_files.map (fun f => pr.1.name ++ "/" ++ f))
  let skipped := reports.bind (fun pr =>
    pr.2.skipped_files.map (fun f => pr.1.name ++ "/" ++ f))
  let hard := reports.bind (fun pr =>
    pr.2.hard_trigger_issues.map (fun m => "[" ++ pr.1.name ++ "] " ++ m))
  let recommendations :=
    reports.foldl (fun acc pr => pr.2.recommendations.foldl insertNew acc) []
  { skill_id := "marketplace::" ++ marketplace_name
    score := score
    level := SecurityLevel.from_score score
    issues := issues
    recommendations := recommendations
    blocked := blocked
    hard_trigger_issues := hard
    scanned_files := scanned
    partial_scan := partialFlag || !skipped.isEmpty
    skipped_files := skipped }

/-- A plugin record with only identity fields set (what `Plugin::new`
produces, modulo the fields irrelevant to merging). -/
def basePlugin (name : String) : Plugin :=
  { id := "local::" ++ name ++ "::" ++ name, claude_id := some (name ++ "@m"), name := name
    description := none, version := none, installed_version := none, author := none
    repository_url := "local", repository_owner := some "local", marketplace_name := "m"
    source := "external", discovery_source := some "repository_scan"
    marketplace_add_command := none, plugin_install_command := none, installed := false
    installed_at := none, claude_scope := none, claude_enabled := none
    claude_install_path := none, claude_last_updated := none, security_score := none
    security_issues := none, security_level := none, scanned_at := none
    staging_path := none, install_log := none, install_status := none }

/-- An otherwise-clean report with one skipped file but
`partial_scan = false`, and a report with an out-of-range score. -/
def c7report1 : SecurityReport :=
  { skill_id := "a", score := 90, level := .safe, issues := [], recommendations := ["r1"]
    blocked := false, hard_trigger_issues := [], scanned_files := ["x.md"]
    partial_scan := false, skipped_files := ["bin.dat"] }

/-- A report whose score exceeds 100. -/
def c7report2 : SecurityReport :=
  { skill_id := "b", score := 150, level := .safe, issues := [], recommendations := []
    blocked := false, hard_trigger_issues := [], scanned_files := []
    partial_scan := false, skipped_files := [] }

/-- C7 counterexample: merging a single report with `partial_scan = false`
but a non-empty `skipped_files` list yields `partial_scan = true`, not
the OR of the constituents' flags; and merging a single report whose
score exceeds 100 yields score 100, not the minimum of the constituent
scores. -/
theorem merge_reports_counterexample :
    (merge_reports [(basePlugin "p", c7report1)] "m").partial_scan = true ∧
    ([(basePlugin "p", c7report1)].map (fun pr => pr.2.partial_scan)).any id = false ∧
    (merge_reports [(basePlugin "q", c7report2)] "m").score = 100 ∧
    c7report2.score = 150 := by
  exact ⟨by decide, by decide, by decide, by decide⟩

theorem foldl_insertNew_mem (l : List String) : ∀ (acc : List String) (x : String),
    x ∈ l.foldl insertNew acc ↔ x ∈ acc ∨ x ∈ l := by
  induction l with
  | nil => simp
  | cons y ys ih =>
      intro acc x
      rw [List.foldl_cons, ih, mem_insertNew]
      constructor
      · rintro ((h | rfl) | h)
        · exact Or.inl h
        · exact Or.inr (List.mem_cons_self _ _)
        · exact Or.inr (List.mem_cons_of_mem _ h)
      · rintro (h | h)
        · exact Or.inl (Or.inl h)
        · rcases List.mem_cons.mp h with rfl | h
          · exact Or.inl (Or.inr rfl)
          · exact Or.inr h

theorem foldl_insertNew_nodup (l : List String) : ∀ acc : List String, acc.Nodup →
    (l.foldl insertNew acc).Nodup := by
  induction l with
  | nil => exact fun _ h => h
  | cons y ys ih => exact fun acc h => ih _ (insertNew_nodup h y)

theorem mergeScore_le (reports : List (Plugin × SecurityReport)) :
    ∀ init : Int,
      reports.foldl (fun sc pr => if pr.2.score < sc then pr.2.score else sc) init ≤ init ∧
      ∀ pr ∈ reports,
        reports.foldl (fun sc pr => if pr.2.score < sc then pr.2.score else sc) init
          ≤ pr.2.score := by
  induction reports with
  | nil => exact fun init => ⟨le_refl _, by simp⟩
  | cons r rs ih =>
      intro init
      rw [List.foldl_cons]
      by_cases h : r.2.score < init
      · rw [if_pos h]
        refine ⟨le_trans (ih r.2.score).1 h.le, ?_⟩
        intro pr hpr
        rcases List.mem_cons.mp hpr with rfl | hpr
        · exact (ih pr.2.score).1
        · exact (ih r.2.score).2 pr hpr
      · rw [if_neg h]
        refine ⟨(ih init).1, ?_⟩
        intro pr hpr
        rcases List.mem_cons.mp hpr with rfl | hpr
        · exact le_trans (ih init).1 (not_lt.mp h)
        · exact (ih init).2 pr hpr

theorem mergeScore_mem (reports : List (Plugin × SecurityReport)) :
    ∀ init : Int,
      reports.foldl (fun sc pr => if pr.2.score < sc then pr.2.score else sc) init = init ∨
        ∃ pr ∈ reports,
          reports.foldl (fun sc pr => if pr.2.score < sc then pr.2.score else sc) init
            = pr.2.score := by
  induction reports with
  | nil => exact fun init => Or.inl rfl
  | cons r rs ih =>
      intro init
      rw [List.foldl_cons]
      by_cases h : r.2.score < init
      · rw [if_pos h]
        rcases ih r.2.score with heq | ⟨pr, hpr, heq⟩
        · exact Or.inr ⟨r, List.mem_cons_self _ _, heq⟩
        · exact Or.inr ⟨pr, List.mem_cons_of_mem _ hpr, heq⟩
      · rw [if_neg h]
        rcases ih init with heq | ⟨pr, hpr, heq⟩
        · exact Or.inl heq
        · exact Or.inr ⟨pr, List.mem_cons_of_mem _ hpr, heq⟩

theorem mergeOrFold (f : Plugin × SecurityReport → Bool)
    (reports : List (Plugin × SecurityReport)) :
    ∀ init : Bool, reports.foldl (fun b pr => b || f pr) init = (init || reports.any f) := by
  induction reports with
  | nil => intro init; simp
  | cons r rs ih =>
      intro init
      rw [List.foldl_cons, ih, List.any_cons, Bool.or_assoc]

theorem mergeSkippedAny (reports : List (Plugin × SecurityReport)) :
    (!(reports.bind (fun pr =>
        pr.2.skipped_files.map (fun f => pr.1.name ++ "/" ++ f))).isEmpty)
      = reports.any (fun pr => !pr.2.skipped_files.isEmpty) := by
  induction reports with
  | nil => rfl
  | cons r rs ih =>
      show (!(r.2.skipped_files.map (fun f => r.1.name ++ "/" ++ f) ++
          rs.bind (fun pr =>
            pr.2.skipped_files.map (fun f => pr.1.name ++ "/" ++ f))).isEmpty) = _
      rw [List.any_cons]
      cases hsk : r.2.skipped_files with
      | nil => simpa [hsk] using ih
      | cons a t => simp [hsk]

theorem mergeRec_mem (reports : List (Plugin × SecurityReport)) :
    ∀ (acc : List String) (x : String),
      x ∈ reports.foldl (fun acc pr => pr.2.recommendations.foldl insertNew acc) acc ↔
        x ∈ acc ∨ ∃ pr ∈ reports, x ∈ pr.2.recommendations := by
  induction reports with
  | nil => simp
  | cons r rs ih =>
      intro acc x
      rw [List.foldl_cons, ih, foldl_insertNew_mem]
      constructor
      · rintro ((h | h) | ⟨pr, hpr, hx⟩)
        · exact Or.inl h
        · exact Or.inr ⟨r, List.mem_cons_self _ _, h⟩
        · exact Or.inr ⟨pr, List.mem_cons_of_mem _ hpr, hx⟩
      · rintro (h | ⟨pr, hpr, hx⟩)
        · exact Or.inl (Or.inl h)
        · rcases List.mem_cons.mp hpr with rfl | hpr
          · exact Or.inl (Or.inr hx)
          · exact Or.inr ⟨pr, hpr, hx⟩

theorem mergeRec_nodup (reports : List (Plugin × SecurityReport)) :
    ∀ acc : List String, acc.Nodup →
      (reports.foldl (fun acc pr => pr.2.recommendations.foldl insertNew acc) acc).Nodup := by
  induction reports with
  | nil => exact fun _ h => h
  | cons r rs ih => exact fun acc h => ih _ (foldl_insertNew_nodup _ acc h)

/-- C7 amended: for a non-empty batch of per-plugin reports whose scores
all lie within the 0–100 range, the merged report's score is the minimum
of the constituent scores (attained by some constituent), `blocked` is the
OR of the constituents' flags, `partial_scan` is the OR of the flags
*or-ed with* whether any constituent skipped a file, every issue's file
path and every scanned, skipped and hard-trigger entry is namespaced by
the owning plugin's name,
and the recommendations are exactly the union of the constituents'
recommendation sets, without duplicates. -/
theorem merge_reports_amended (reports : List (Plugin × SecurityReport))
    (mn : String) (hne : reports ≠ [])
    (hbound : ∀ pr ∈ reports, pr.2.score ≤ 100) :
    ((merge_reports reports mn).score ∈ reports.map (fun pr => pr.2.score) ∧
      ∀ pr ∈ reports, (merge_reports reports mn).score ≤ pr.2.score) ∧
    (merge_reports reports mn).blocked = reports.any (fun pr => pr.2.blocked) ∧
    (merge_reports reports mn).partial_scan
        = (reports.any (fun pr => pr.2.partial_scan) ||
            reports.any (fun pr => !pr.2.skipped_files.isEmpty)) ∧
    (merge_reports reports mn).issues
        = reports.bind (fun pr => pr.2.issues.map (fun i =>
            { i with file_path := i.file_path.map (fun p => pr.1.name ++ "/" ++ p) })) ∧
    (merge_reports reports mn).scanned_files
        = reports.bind (fun pr => pr.2.scanned_files.map (fun f => pr.1.name ++ "/" ++ f)) ∧
    (merge_reports reports mn).skipped_files
        = reports.bind (fun pr => pr.2.skipped_files.map (fun f => pr.1.name ++ "/" ++ f)) ∧
    (merge_reports reports mn).hard_trigger_issues
        = reports.bind (fun pr =>
            pr.2.hard_trigger_issues.map (fun m => "[" ++ pr.1.name ++ "] " ++ m)) ∧
    (∀ x, x ∈ (merge_reports reports mn).recommendations ↔
        ∃ pr ∈ reports, x ∈ pr.2.recommendations) ∧
    (merge_reports reports mn).recommendations.Nodup := by
  have hsc : (merge_reports reports mn).score
      = reports.foldl (fun sc pr => if pr.2.score < sc then pr.2.score else sc) 100 := rfl
  have hbl : (merge_reports reports mn).blocked
      = reports.foldl (fun b pr => b || pr.2.blocked) false := rfl
  have hpa : (merge_reports reports mn).partial_scan
      = (reports.foldl (fun b pr => b || pr.2.partial_scan) false ||
          !(reports.bind (fun pr =>
            pr.2.skipped_files.map (fun f => pr.1.name ++ "/" ++ f))).isEmpty) := rfl
  have hrec : (merge_reports reports mn).recommendations
      = reports.foldl (fun acc pr => pr.2.recommendations.foldl insertNew acc) [] := rfl
  refine ⟨⟨?_, ?_⟩, ?_, ?_, rfl, rfl, rfl, rfl, ?_, ?_⟩
  · rw [hsc]
    rcases mergeScore_mem reports 100 with heq | ⟨pr, hpr, heq⟩
    · rcases List.exists_cons_of_ne_nil hne with ⟨r, rs, rfl⟩
      have hle := (mergeScore_le (r :: rs) 100).2 r (List.mem_cons_self _ _)
      have h100 : r.2.score = 100 := le_antisymm
        (hbound r (List.mem_cons_self _ _)) (heq ▸ hle)
      rw [heq, ← h100]
      exact List.mem_map_of_mem _ (List.mem_cons_self _ _)
    · rw [heq]
      exact List.mem_map_of_mem _ hpr
  · rw [hsc]
    exact (mergeScore_le reports 100).2
  · rw [hbl, mergeOrFold (fun pr => pr.2.blocked) reports false, Bool.false_or]
  · rw [hpa, mergeOrFold (fun pr => pr.2.partial_scan) reports false, Bool.false_or,
      mergeSkippedAny]
  · intro x
    rw [hrec, mergeRec_mem]
    simp
  · rw [hrec]
    exact mergeRec_nodup reports [] List.nodup_nil

/-- The two-report batch used to witness `merge_reports_amended`. -/
def c7pairs : List (Plugin × SecurityReport) :=
  [(basePlugin "p", c7report1), (basePlugin "q", c7report1)]

/-- Witness for `merge_reports_amended` at a concrete two-report batch. -/
theorem merge_reports_amended_witness :
    (merge_reports c7pairs "m").score ∈ c7pairs.map (fun pr => pr.2.score) ∧
    (merge_reports c7pairs "m").blocked = c7pairs.any (fun pr => pr.2.blocked) ∧
    (merge_reports c7pairs "m").partial_scan
        = (c7pairs.any (fun pr => pr.2.partial_scan) ||
            c7pairs.any (fun pr => !pr.2.skipped_files.isEmpty)) :=
  ⟨(merge_reports_amended c7pairs "m" (by decide) (by decide)).1.1,
   (merge_reports_amended c7pairs "m" (by decide) (by decide)).2.1,
   (merge_reports_amended c7pairs "m" (by decide) (by decide)).2.2.1⟩

/-- `plugin_manager.rs::ClaudeInstalledPluginEntry`: one row of the CLI's
`plugin list --json` output. -/
structure ClaudeInstalledPluginEntry where
  id : String
  version : Option String
  scope : Option String
  enabled : Option Bool
  install_path : Option String
  installed_at : Option String
  last_updated : Option String
deriving DecidableEq, Repr

/-- `str::rsplit_once` specialised to a one-character pattern, on the
character list of a string: split around the last occurrence. -/
def rsplitOnceChar (c : Char) : List Char → Option (List Char × List Char)
  | [] => none
  | x :: xs =>
      match rsplitOnceChar c xs with
      | some (a, b) => some (x :: a, b)
      | none => if x = c then some ([], xs) else none

/-- `plugin_manager.rs::parse_claude_plugin_id`. -/
def parse_claude_plugin_id (id : String) : Option (String × String) :=
  match rsplitOnceChar '@' id.data with
  | none => none
  | some (n, m) =>
      if n.isEmpty || m.isEmpty then none
      else some (String.mk n, String.mk m)

/-- Helper for `parse_repository_owner`: the suffix of `s` following the
first occurrence of `pat` (`str::find` + slicing). -/
def afterSub (pat : List Char) : List Char → Option (List Char)
  | [] => if pat.isPrefixOf ([] : List Char) then some [] else none
  | c :: rest =>
      if pat.isPrefixOf (c :: rest) then some ((c :: rest).drop pat.length)
      else afterSub pat rest

/-- `models/plugin.rs::Plugin::parse_repository_owner`. -/
def parse_repository_owner (repository_url : String) : String :=
  if repository_url = "local" then "local"
  else
    match afterSub "github.com/".data repository_url.data with
    | some after =>
        if after.contains '/' then String.mk (after.takeWhile (fun c => c ≠ '/'))
        else "unknown"
    | none => "unknown"

/-- `models/plugin.rs::Plugin::new`. -/
def Plugin.new (name repository_url marketplace_name source : String) : Plugin :=
  { id := repository_url ++ "::" ++ marketplace_name ++ "::" ++ name
    claude_id := some (name ++ "@" ++ marketplace_name)
    name := name
    description := none
    version := none
    installed_version := none
    author := none
    repository_url := repository_url
    repository_owner := some (parse_repository_owner repository_url)
    marketplace_name := marketplace_name
    source := source
    discovery_source := some "repository_scan"
    marketplace_add_command := none
    plugin_install_command := none
    installed := false
    installed_at := none
    claude_scope := none
    claude_enabled := none
    claude_install_path := none
    claude_last_updated := none
    security_score := none
    security_issues := none
    security_level := none
    scanned_at := none
    staging_path := none
    install_log := none
    install_status := none }

/-- `database.rs::save_plugin`: `INSERT OR REPLACE` keyed by `id`,
modelled on a list store. -/
def save_plugin (store : List Plugin) (p : Plugin) : List Plugin :=
  if store.any (fun q => q.id == p.id) then
    store.map (fun q => if q.id == p.id then p else q)
  else store ++ [p]

/-- The `plugins_by_claude_id` map of `sync_claude_installed_state`: each
stored plugin is inserted keyed by its `claude_id`, a later insertion
overwriting an earlier one, so lookup returns the last matching record. -/
def findByClaudeId (store : List Plugin) (cid : String) : Option Plugin :=
  store.reverse.find? (fun p => p.claude_id == some cid)

/-- The field updates `sync_claude_installed_state` applies to the plugin
matched to (or synthesised for) a CLI listing entry.  `parse_datetime` is
abstracted as `pdt`. -/
def applyEntry (pdt : Option String → Option Int) (entry : ClaudeInstalledPluginEntry)
    (pn mn : String) (base : Plugin) : Plugin :=
  { base with
    claude_id := some entry.id
    installed := true
    installed_version := entry.version
    claude_scope := entry.scope
    claude_enabled := entry.enabled
    claude_install_path := entry.install_path
    claude_last_updated := pdt entry.last_updated
    installed_at := if base.installed_at.isNone then pdt entry.installed_at
      else base.installed_at
    marketplace_name := if base.marketplace_name = "" then mn else base.marketplace_name
    name := if base.name = "" then pn else base.name }

/-- One iteration of the forward loop of `sync_claude_installed_state`:
unparsable ids are skipped; otherwise the plugin found in the pre-loop
`claude_id` map — or a fresh `Plugin::new` record marked as discovered via
the CLI — is updated and saved.  The marketplace-repo-URL map (with its
`"local"` default) is abstracted as `repoUrl`. -/
def forwardStep (repoUrl : String → String) (pdt : Option String → Option Int)
    (byId : String → Option Plugin) (st : List Plugin)
    (entry : ClaudeInstalledPluginEntry) : List Plugin :=
  match parse_claude_plugin_id entry.id with
  | none => st
  | some (pn, mn) =>
      let base := match byId entry.id with
        | some p => p
        | none =>
            { Plugin.new pn (repoUrl mn) mn "external" with
              discovery_source := some "claude_cli" }
      save_plugin st (applyEntry pdt entry pn mn base)

/-- The forward pass of `sync_claude_installed_state`: the `claude_id` map
is built once from the store as it stood before the loop. -/
def syncForward (repoUrl : String → String) (pdt : Option String → Option Int)
    (store : List Plugin) (listing : List ClaudeInstalledPluginEntry) : List Plugin :=
  listing.foldl (forwardStep repoUrl pdt (findByClaudeId store)) store

/-- The reverse pass's clearing of install metadata. -/
def clearInstall (p : Plugin) : Plugin :=
  { p with
    installed := false
    installed_at := none
    installed_version := none
    claude_scope := none
    claude_enabled := none
    claude_install_path := none
    claude_last_updated := none }

/-- The reverse pass's per-plugin condition: a `claude_id`-bearing plugin
marked installed whose id is absent from the CLI listing. -/
def flipCond (ids : List String) (p : Plugin) : Bool :=
  match p.claude_id with
  | none => false
  | some cid => p.installed && !(ids.contains cid)

/-- One iteration of the reverse loop: flip such a plugin back to
not-installed and save it; leave everything else alone. -/
def reverseStep (ids : List String) (st : List Plugin) (p : Plugin) : List Plugin :=
  if flipCond ids p then save_plugin st (clearInstall p) else st

/-- The reverse pass: iterate over a snapshot of the store taken after the
forward pass, folding the saves back into the store. -/
def syncReverse (ids : List String) (store : List Plugin) : List Plugin :=
  store.foldl (reverseStep ids) store

/-- `plugin_manager.rs::sync_claude_installed_state` on the persisted
plugin store: the forward adoption pass over the CLI listing followed by
the reverse reconciliation pass over the set of listed ids.  The CLI
invocations and JSON parsing are outside the model; the marketplace-URL
map and `parse_datetime` are abstract parameters. -/
def sync_claude_installed_state (repoUrl : String → String)
    (pdt : Option String → Option Int) (store : List Plugin)
    (listing : List ClaudeInstalledPluginEntry) : List Plugin :=
  syncReverse (listing.map (fun e => e.id)) (syncForward repoUrl pdt store listing)

/-- The record the pre-loop `claude_id` map yields for a listing entry
(only meaningful when the lookup succeeds). -/
def QofEntry (store : List Plugin) (e : ClaudeInstalledPluginEntry) : Plugin :=
  (findByClaudeId store e.id).getD (Plugin.new "" "" "" "")

/-- The record the forward pass writes for a listing entry whose id
parses and whose `claude_id` lookup succeeds. -/
def WofEntry (pdt : Option String → Option Int) (store : List Plugin)
    (e : ClaudeInstalledPluginEntry) : Plugin :=
  match parse_claude_plugin_id e.id with
  | some (pn, mn) => applyEntry pdt e pn mn (QofEntry store e)
  | none => QofEntry store e

/-- An externally-installed plugin record carrying no `claude_id`. -/
def c8orphan : Plugin :=
  { Plugin.new "o" "local" "m" "external" with
    claude_id := none
    installed := true
    installed_at := some 7 }

/-- C8 counterexample: the reverse reconciliation pass only examines
plugins carrying a `claude_id`.  A persisted plugin marked installed but
carrying no `claude_id` is absent from the (here empty) CLI listing, yet
the sync leaves it installed with its install metadata intact, against
the claim that every installed plugin absent from the listing is flipped. -/
theorem claude_sync_counterexample :
    sync_claude_installed_state (fun _ => "local") (fun _ => none) [c8orphan] []
        = [c8orphan] ∧
    c8orphan.installed = true ∧ c8orphan.installed_at = some 7 ∧
    c8orphan.claude_id = none := by
  exact ⟨by decide, by decide, by decide, by decide⟩

theorem mem_ids_save_plugin (store : List Plugin) (p : Plugin) (i : String)
    (h : i ∈ store.map (fun q => q.id)) :
    i ∈ (save_plugin store p).map (fun q => q.id) := by
  unfold save_plugin
  split
  · rcases List.mem_map.mp h with ⟨q, hq, rfl⟩
    rw [List.map_map]
    refine List.mem_map.mpr ⟨q, hq, ?_⟩
    by_cases hqp : (q.id == p.id) = true
    · simp only [Function.comp_apply, if_pos hqp]
      exact (beq_iff_eq.mp hqp).symm
    · simp only [Function.comp_apply, if_neg hqp]
  · rw [List.map_append]
    exact List.mem_append_left _ h

theorem save_plugin_ids_of_any (store : List Plugin) (p : Plugin)
    (h : store.any (fun q => q.id == p.id) = true) :
    (save_plugin store p).map (fun q => q.id) = store.map (fun q => q.id) := by
  unfold save_plugin
  rw [if_pos h, List.map_map]
  refine List.map_congr_left ?_
  intro q _
  by_cases hqp : (q.id == p.id) = true
  · simp only [Function.comp_apply, if_pos hqp]
    exact (beq_iff_eq.mp hqp).symm
  · simp only [Function.comp_apply, if_neg hqp]

theorem save_plugin_nodup (store : List Plugin) (p : Plugin)
    (h : (store.map (fun q => q.id)).Nodup) :
    ((save_plugin store p).map (fun q => q.id)).Nodup := by
  by_cases hany : store.any (fun q => q.id == p.id) = true
  · rw [save_plugin_ids_of_any store p hany]
    exact h
  · have hni : p.id ∉ store.map (fun q => q.id) := by
      intro hmem
      rcases List.mem_map.mp hmem with ⟨q, hq, hid⟩
      exact hany (List.any_eq_true.mpr ⟨q, hq, beq_iff_eq.mpr hid⟩)
    unfold save_plugin
    rw [if_neg hany, List.map_append]
    rw [List.nodup_append]
    refine ⟨h, List.nodup_singleton _, ?_⟩
    intro a ha hb
    rw [List.map_singleton, List.mem_singleton] at hb
    exact hni (hb ▸ ha)

theorem save_plugin_self (store : List Plugin) (q : Plugin)
    (hnd : (store.map (fun p => p.id)).Nodup) (hq : q ∈ store) :
    save_plugin store q = store := by
  have hany : store.any (fun r => r.id == q.id) = true :=
    List.any_eq_true.mpr ⟨q, hq, beq_iff_eq.mpr rfl⟩
  unfold save_plugin
  rw [if_pos hany]
  have hcong : ∀ r ∈ store, (if r.id == q.id then q else r) = r := by
    intro r hr
    by_cases hrq : (r.id == q.id) = true
    · rw [if_pos hrq]
      exact List.inj_on_of_nodup_map hnd hq hr (beq_iff_eq.mp hrq).symm
    · rw [if_neg hrq]
  rw [List.map_congr_left hcong]
  exact List.map_id' store

theorem mem_save_plugin_of_ne (store : List Plugin) (p q : Plugin)
    (hq : q ∈ store) (hne : q.id ≠ p.id) : q ∈ save_plugin store p := by
  unfold save_plugin
  split
  · refine List.mem_map.mpr ⟨q, hq, ?_⟩
    rw [if_neg (fun hb => hne (beq_iff_eq.mp hb))]
  · exact List.mem_append_left _ hq

theorem mem_save_plugin (store : List Plugin) (p r : Plugin)
    (hr : r ∈ save_plugin store p) : r = p ∨ (r ∈ store ∧ r.id ≠ p.id) := by
  unfold save_plugin at hr
  split at hr
  · rcases List.mem_map.mp hr with ⟨q, hq, rfl⟩
    by_cases hqp : (q.id == p.id) = true
    · rw [if_pos hqp]
      exact Or.inl rfl
    · rw [if_neg hqp]
      exact Or.inr ⟨hq, fun hb => hqp (beq_iff_eq.mpr hb)⟩
  · rename_i hany
    rcases List.mem_append.mp hr with h | h
    · refine Or.inr ⟨h, fun hb => hany ?_⟩
      exact List.any_eq_true.mpr ⟨r, h, beq_iff_eq.mpr hb⟩
    · exact Or.inl (List.mem_singleton.mp h)

theorem self_mem_save_plugin (store : List Plugin) (p : Plugin) :
    p ∈ save_plugin store p := by
  unfold save_plugin
  split
  · rename_i hany
    rcases List.any_eq_true.mp hany with ⟨q, hq, hqp⟩
    exact List.mem_map.mpr ⟨q, hq, by rw [if_pos hqp]⟩
  · exact List.mem_append_right _ (List.mem_singleton.mpr rfl)

theorem foldl_id_of_fixed {α β : Type} (f : α → β → α) (a : α) :
    ∀ l : List β, (∀ x ∈ l, f a x = a) → l.foldl f a = a := by
  intro l
  induction l with
  | nil => intro _; rfl
  | cons x xs ih =>
      intro h
      rw [List.foldl_cons, h x (List.mem_cons_self _ _)]
      exact ih (fun y hy => h y (List.mem_cons_of_mem _ hy))

theorem flipCond_clearInstall (ids : List String) (p : Plugin) :
    flipCond ids (clearInstall p) = false := by
  unfold flipCond clearInstall
  cases hc : p.claude_id <;> simp [hc]

theorem flipCond_image (ids : List String) (p : Plugin) :
    flipCond ids (if flipCond ids p = true then clearInstall p else p) = false := by
  by_cases hf : flipCond ids p = true
  · rw [if_pos hf]
    exact flipCond_clearInstall ids p
  · rw [if_neg hf]
    exact Bool.not_eq_true _ ▸ hf

theorem foldl_reverseStep_eq (ids : List String) :
    ∀ (todo st : List Plugin),
      (st.map (fun p => p.id)).Nodup →
      (todo.map (fun p => p.id)).Nodup →
      (∀ p ∈ todo, p ∈ st) →
      todo.foldl (reverseStep ids) st
        = st.map (fun q => if q ∈ todo ∧ flipCond ids q = true then clearInstall q else q) := by
  intro todo
  induction todo with
  | nil =>
      intro st _ _ _
      rw [List.foldl_nil]
      have hc : ∀ q ∈ st, (if q ∈ ([] : List Plugin) ∧ flipCond ids q = true
          then clearInstall q else q) = q := by
        intro q _
        rw [if_neg]
        rintro ⟨h3, _⟩
        exact (List.not_mem_nil q) h3
      rw [List.map_congr_left hc]
      exact (List.map_id' st).symm
  | cons p todo' ih =>
      intro st hstnd htodond hsub
      rw [List.map_cons] at htodond
      obtain ⟨hpid_notin, htodond'⟩ := List.nodup_cons.mp htodond
      rw [List.foldl_cons]
      by_cases hf : flipCond ids p = true
      · have hpst : p ∈ st := hsub p (List.mem_cons_self _ _)
        have hstep : reverseStep ids st p = save_plugin st (clearInstall p) := by
          unfold reverseStep
          rw [if_pos hf]
        rw [hstep]
        have hany : st.any (fun q => q.id == (clearInstall p).id) = true :=
          List.any_eq_true.mpr ⟨p, hpst, beq_iff_eq.mpr rfl⟩
        have hst'_eq : save_plugin st (clearInstall p)
            = st.map (fun q => if q = p then clearInstall p else q) := by
          unfold save_plugin
          rw [if_pos hany]
          refine List.map_congr_left ?_
          intro q hq
          by_cases hqid : (q.id == (clearInstall p).id) = true
          · have hqp : q = p := List.inj_on_of_nodup_map hstnd hq hpst (beq_iff_eq.mp hqid)
            rw [if_pos hqid, if_pos hqp]
          · rw [if_neg hqid, if_neg]
            intro hqp
            subst hqp
            exact hqid (beq_iff_eq.mpr rfl)
        rw [hst'_eq]
        have hst'nd : ((st.map (fun q => if q = p then clearInstall p else q)).map
            (fun r => r.id)).Nodup := by
          rw [List.map_map]
          have hc : ∀ q ∈ st,
              ((fun r => r.id) ∘ (fun q => if q = p then clearInstall p else q)) q = q.id := by
            intro q _
            by_cases hqp : q = p
            · simp only [Function.comp_apply, if_pos hqp, hqp]
              rfl
            · simp only [Function.comp_apply, if_neg hqp]
          rw [List.map_congr_left hc]
          exact hstnd
        have hsub' : ∀ q ∈ todo', q ∈ st.map (fun q => if q = p then clearInstall p else q) := by
          intro q hq
          have hqst := hsub q (List.mem_cons_of_mem _ hq)
          have hqnep : q ≠ p := by
            intro h
            exact hpid_notin (List.mem_map.mpr ⟨q, hq, by rw [h]⟩)
          exact List.mem_map.mpr ⟨q, hqst, by rw [if_neg hqnep]⟩
        rw [ih _ hst'nd htodond' hsub', List.map_map]
        refine List.map_congr_left ?_
        intro q hq
        by_cases hqp : q = p
        · subst hqp
          simp [hf, flipCond_clearInstall]
        · simp only [Function.comp_apply, if_neg hqp]
          by_cases hqt : q ∈ todo' ∧ flipCond ids q = true
          · rw [if_pos hqt, if_pos ⟨List.mem_cons_of_mem _ hqt.1, hqt.2⟩]
          · rw [if_neg hqt, if_neg]
            rintro ⟨hmem, hflip⟩
            rcases List.mem_cons.mp hmem with h | h
            · exact hqp h
            · exact hqt ⟨h, hflip⟩
      · have hstep : reverseStep ids st p = st := by
          unfold reverseStep
          rw [if_neg hf]
        rw [hstep]
        have hsub' : ∀ q ∈ todo', q ∈ st := fun q hq => hsub q (List.mem_cons_of_mem _ hq)
        rw [ih st hstnd htodond' hsub']
        refine List.map_congr_left ?_
        intro q hq
        by_cases hqp : q = p
        · subst hqp
          rw [if_neg, if_neg]
          · rintro ⟨_, hflip⟩
            exact hf hflip
          · rintro ⟨_, hflip⟩
            exact hf hflip
        · by_cases hqt : q ∈ todo' ∧ flipCond ids q = true
          · rw [if_pos hqt, if_pos ⟨List.mem_cons_of_mem _ hqt.1, hqt.2⟩]
          · rw [if_neg hqt, if_neg]
            rintro ⟨hmem, hflip⟩
            rcases List.mem_cons.mp hmem with h | h
            · exact hqp h
            · exact hqt ⟨h, hflip⟩

theorem syncReverse_eq_map (ids : List String) (store : List Plugin)
    (hnd : (store.map (fun p => p.id)).Nodup) :
    syncReverse ids store
      = store.map (fun q => if flipCond ids q = true then clearInstall q else q) := by
  unfold syncReverse
  rw [foldl_reverseStep_eq ids store store hnd hnd (fun p hp => hp)]
  refine List.map_congr_left ?_
  intro q hq
  by_cases hflip : flipCond ids q = true
  · rw [if_pos ⟨hq, hflip⟩, if_pos hflip]
  · rw [if_neg (fun h => hflip h.2), if_neg hflip]

theorem findByClaudeId_isSome (store : List Plugin) (cid : String) (q : Plugin)
    (hq : q ∈ store) (hcid : q.claude_id = some cid) :
    (findByClaudeId store cid).isSome = true := by
  unfold findByClaudeId
  rw [List.find?_isSome]
  exact ⟨q, List.mem_reverse.mpr hq, beq_iff_eq.mpr hcid⟩

theorem QofEntry_spec (store : List Plugin) (e : ClaudeInstalledPluginEntry)
    (h : (findByClaudeId store e.id).isSome = true) :
    QofEntry store e ∈ store ∧ (QofEntry store e).claude_id = some e.id := by
  unfold QofEntry
  cases hfind : findByClaudeId store e.id with
  | none =>
      rw [hfind] at h
      exact absurd h (by simp)
  | some q =>
      unfold findByClaudeId at hfind
      have hpred := List.find?_some hfind
      simp only [Option.getD_some]
      exact ⟨List.mem_reverse.mp (List.mem_of_find?_eq_some hfind), beq_iff_eq.mp hpred⟩

theorem findByClaudeId_eq_of_unique (store : List Plugin) (cid : String) (q : Plugin)
    (hq : q ∈ store) (hcid : q.claude_id = some cid)
    (huniq : ∀ r ∈ store, r.claude_id = some cid → r = q) :
    findByClaudeId store cid = some q := by
  have hs := findByClaudeId_isSome store cid q hq hcid
  cases hfind : findByClaudeId store cid with
  | none =>
      rw [hfind] at hs
      exact absurd hs (by simp)
  | some r =>
      have hfind' := hfind
      unfold findByClaudeId at hfind'
      have hrmem : r ∈ store := List.mem_reverse.mp (List.mem_of_find?_eq_some hfind')
      have hpred := List.find?_some hfind'
      rw [huniq r hrmem (beq_iff_eq.mp hpred)]

theorem applyEntry_id (pdt : Option String → Option Int)
    (e : ClaudeInstalledPluginEntry) (pn mn : String) (b : Plugin) :
    (applyEntry pdt e pn mn b).id = b.id := rfl

theorem applyEntry_cid (pdt : Option String → Option Int)
    (e : ClaudeInstalledPluginEntry) (pn mn : String) (b : Plugin) :
    (applyEntry pdt e pn mn b).claude_id = some e.id := rfl

theorem applyEntry_idem (pdt : Option String → Option Int)
    (e : ClaudeInstalledPluginEntry) (pn mn : String) (b : Plugin) :
    applyEntry pdt e pn mn (applyEntry pdt e pn mn b) = applyEntry pdt e pn mn b := by
  unfold applyEntry
  cases hia : b.installed_at <;> by_cases hbm : b.marketplace_name = "" <;>
    by_cases hbn : b.name = "" <;> simp [hia, hbm, hbn]

theorem forwardStep_none (repoUrl : String → String) (pdt : Option String → Option Int)
    (byId : String → Option Plugin) (st : List Plugin) (e : ClaudeInstalledPluginEntry)
    (hp : parse_claude_plugin_id e.id = none) :
    forwardStep repoUrl pdt byId st e = st := by
  unfold forwardStep
  rw [hp]

theorem forwardStep_some (repoUrl : String → String) (pdt : Option String → Option Int)
    (byId : String → Option Plugin) (st : List Plugin) (e : ClaudeInstalledPluginEntry)
    (pn mn : String) (q : Plugin)
    (hp : parse_claude_plugin_id e.id = some (pn, mn)) (hb : byId e.id = some q) :
    forwardStep repoUrl pdt byId st e = save_plugin st (applyEntry pdt e pn mn q) := by
  unfold forwardStep
  rw [hp, hb]

theorem WofEntry_some (pdt : Option String → Option Int) (store : List Plugin)
    (e : ClaudeInstalledPluginEntry) (pn mn : String)
    (hp : parse_claude_plugin_id e.id = some (pn, mn)) :
    WofEntry pdt store e = applyEntry pdt e pn mn (QofEntry store e) := by
  unfold WofEntry
  rw [hp]

theorem WofEntry_none (pdt : Option String → Option Int) (store : List Plugin)
    (e : ClaudeInstalledPluginEntry) (hp : parse_claude_plugin_id e.id = none) :
    WofEntry pdt store e = QofEntry store e := by
  unfold WofEntry
  rw [hp]

theorem WofEntry_cid (pdt : Option String → Option Int) (store : List Plugin)
    (e : ClaudeInstalledPluginEntry)
    (h : (findByClaudeId store e.id).isSome = true) :
    (WofEntry pdt store e).claude_id = some e.id := by
  cases hp : parse_claude_plugin_id e.id with
  | none =>
      rw [WofEntry_none pdt store e hp]
      exact (QofEntry_spec store e h).2
  | some pm =>
      rw [WofEntry_some pdt store e pm.1 pm.2 (by rw [hp])]
      exact applyEntry_cid pdt e pm.1 pm.2 _

theorem WofEntry_id (pdt : Option String → Option Int) (store : List Plugin)
    (e : ClaudeInstalledPluginEntry) :
    (WofEntry pdt store e).id = (QofEntry store e).id := by
  cases hp : parse_claude_plugin_id e.id with
  | none => rw [WofEntry_none pdt store e hp]
  | some pm =>
      rw [WofEntry_some pdt store e pm.1 pm.2 (by rw [hp])]
      exact applyEntry_id pdt e pm.1 pm.2 _

theorem QofEntry_ne (store : List Plugin) (hnd : (store.map (fun p => p.id)).Nodup)
    (e e' : ClaudeInstalledPluginEntry)
    (hf : (findByClaudeId store e.id).isSome = true)
    (hf' : (findByClaudeId store e'.id).isSome = true)
    (hne : e.id ≠ e'.id) : (QofEntry store e).id ≠ (QofEntry store e').id := by
  intro h
  have h1 := QofEntry_spec store e hf
  have h2 := QofEntry_spec store e' hf'
  have hqq : QofEntry store e = QofEntry store e' :=
    List.inj_on_of_nodup_map hnd h1.1 h2.1 h
  have hc := h1.2
  rw [hqq, h2.2] at hc
  exact hne (Option.some.inj hc).symm

theorem forwardFold_charact (repoUrl : String → String) (pdt : Option String → Option Int)
    (store : List Plugin) (hnd : (store.map (fun p => p.id)).Nodup) :
    ∀ (R : List ClaudeInstalledPluginEntry) (st : List Plugin),
      (R.map (fun e => e.id)).Nodup →
      (∀ e ∈ R, (findByClaudeId store e.id).isSome = true) →
      st.map (fun p => p.id) = store.map (fun p => p.id) →
      (∀ e ∈ R, QofEntry store e ∈ st) →
      (∀ e ∈ R, ∀ q ∈ st, q.claude_id = some e.id → q = QofEntry store e) →
      (R.foldl (forwardStep repoUrl pdt (findByClaudeId store)) st).map (fun p => p.id)
          = store.map (fun p => p.id) ∧
      (∀ q ∈ R.foldl (forwardStep repoUrl pdt (findByClaudeId store)) st,
          (q ∈ st ∧ ∀ e ∈ R, (parse_claude_plugin_id e.id).isSome = true →
              q.id ≠ (QofEntry store e).id) ∨
          (∃ e ∈ R, (parse_claude_plugin_id e.id).isSome = true ∧
              q = WofEntry pdt store e)) ∧
      (∀ q ∈ st, (∀ e ∈ R, (parse_claude_plugin_id e.id).isSome = true →
            q.id ≠ (QofEntry store e).id) →
          q ∈ R.foldl (forwardStep repoUrl pdt (findByClaudeId store)) st) ∧
      (∀ e ∈ R,
          WofEntry pdt store e
              ∈ R.foldl (forwardStep repoUrl pdt (findByClaudeId store)) st ∧
          ∀ q ∈ R.foldl (forwardStep repoUrl pdt (findByClaudeId store)) st,
            q.claude_id = some e.id → q = WofEntry pdt store e) := by
  intro R
  induction R with
  | nil =>
      intro st _ _ hids _ _
      rw [List.foldl_nil]
      refine ⟨hids, ?_, ?_, ?_⟩
      · intro q hq
        exact Or.inl ⟨hq, fun e he _ => absurd he (List.not_mem_nil e)⟩
      · intro q hq _
        exact hq
      · intro e he
        exact absurd he (List.not_mem_nil e)
  | cons e₀ R' ih =>
      intro st hRnd hfinds hids hpres hcid
      rw [List.map_cons] at hRnd
      obtain ⟨hnotin, hRnd'⟩ := List.nodup_cons.mp hRnd
      have hfinds' : ∀ e ∈ R', (findByClaudeId store e.id).isSome = true :=
        fun e he => hfinds e (List.mem_cons_of_mem _ he)
      have hne0 : ∀ e ∈ R', e₀.id ≠ e.id := by
        intro e he h
        exact hnotin (by rw [h]; exact List.mem_map.mpr ⟨e, he, rfl⟩)
      have hfs := hfinds e₀ (List.mem_cons_self _ _)
      cases hp : parse_claude_plugin_id e₀.id with
      | none =>
          have hstep : (e₀ :: R').foldl (forwardStep repoUrl pdt (findByClaudeId store)) st
              = R'.foldl (forwardStep repoUrl pdt (findByClaudeId store)) st := by
            rw [List.foldl_cons, forwardStep_none repoUrl pdt _ st e₀ hp]
          rw [hstep]
          obtain ⟨hK1, hK2, hK3, hK4⟩ := ih st hRnd' hfinds' hids
            (fun e he => hpres e (List.mem_cons_of_mem _ he))
            (fun e he => hcid e (List.mem_cons_of_mem _ he))
          refine ⟨hK1, ?_, ?_, ?_⟩
          · intro q hq
            rcases hK2 q hq with ⟨hqst, hcond⟩ | ⟨e, he, hpe, heq⟩
            · refine Or.inl ⟨hqst, ?_⟩
              intro e he hpe
              rcases List.mem_cons.mp he with rfl | he'
              · rw [hp] at hpe
                exact absurd hpe (by simp)
              · exact hcond e he' hpe
            · exact Or.inr ⟨e, List.mem_cons_of_mem _ he, hpe, heq⟩
          · intro q hq hcond
            exact hK3 q hq (fun e he hpe => hcond e (List.mem_cons_of_mem _ he) hpe)
          · intro e he
            rcases List.mem_cons.mp he with rfl | he'
            · constructor
              · rw [WofEntry_none pdt store e hp]
                refine hK3 (QofEntry store e) (hpres e (List.mem_cons_self _ _)) ?_
                intro e' he' _
                exact QofEntry_ne store hnd e e' hfs (hfinds' e' he') (hne0 e' he')
              · intro q hq hqcid
                rcases hK2 q hq with ⟨hqst, _⟩ | ⟨e', he', hpe', heq⟩
                · rw [WofEntry_none pdt store e hp]
                  exact hcid e (List.mem_cons_self _ _) q hqst hqcid
                · exfalso
                  have h1 := WofEntry_cid pdt store e' (hfinds' e' he')
                  rw [heq, h1] at hqcid
                  exact hne0 e' he' (Option.some.inj hqcid).symm
            · exact hK4 e he'
      | some pm =>
          obtain ⟨pn, mn⟩ := pm
          have hQW : forwardStep repoUrl pdt (findByClaudeId store) st e₀
              = save_plugin st (WofEntry pdt store e₀) := by
            cases hb : findByClaudeId store e₀.id with
            | none =>
                rw [hb] at hfs
                exact absurd hfs (by simp)
            | some q₀ =>
                have hQ0 : QofEntry store e₀ = q₀ := by
                  unfold QofEntry
                  rw [hb]
                  rfl
                rw [forwardStep_some repoUrl pdt _ st e₀ pn mn q₀ hp hb,
                  WofEntry_some pdt store e₀ pn mn hp, hQ0]
          have hfold : (e₀ :: R').foldl (forwardStep repoUrl pdt (findByClaudeId store)) st
              = R'.foldl (forwardStep repoUrl pdt (findByClaudeId store))
                  (save_plugin st (WofEntry pdt store e₀)) := by
            rw [List.foldl_cons, hQW]
          rw [hfold]
          have hQmem : QofEntry store e₀ ∈ st := hpres e₀ (List.mem_cons_self _ _)
          have hWid : (WofEntry pdt store e₀).id = (QofEntry store e₀).id :=
            WofEntry_id pdt store e₀
          have hWcid : (WofEntry pdt store e₀).claude_id = some e₀.id :=
            WofEntry_cid pdt store e₀ hfs
          have hQne : ∀ e ∈ R', (QofEntry store e₀).id ≠ (QofEntry store e).id :=
            fun e he => QofEntry_ne store hnd e₀ e hfs (hfinds' e he) (hne0 e he)
          have hany0 : st.any (fun q => q.id == (WofEntry pdt store e₀).id) = true :=
            List.any_eq_true.mpr ⟨QofEntry store e₀, hQmem, beq_iff_eq.mpr hWid.symm⟩
          have hids' : (save_plugin st (WofEntry pdt store e₀)).map (fun p => p.id)
              = store.map (fun p => p.id) := by
            rw [save_plugin_ids_of_any st (WofEntry pdt store e₀) hany0, hids]
          have hpres' : ∀ e ∈ R',
              QofEntry store e ∈ save_plugin st (WofEntry pdt store e₀) := by
            intro e he
            refine mem_save_plugin_of_ne st _ _ (hpres e (List.mem_cons_of_mem _ he)) ?_
            rw [hWid]
            exact (hQne e he).symm
          have hcid' : ∀ e ∈ R', ∀ q ∈ save_plugin st (WofEntry pdt store e₀),
              q.claude_id = some e.id → q = QofEntry store e := by
            intro e he q hq hqcid
            rcases mem_save_plugin st _ q hq with rfl | ⟨hqst, _⟩
            · exfalso
              rw [hWcid] at hqcid
              exact hne0 e he (Option.some.inj hqcid)
            · exact hcid e (List.mem_cons_of_mem _ he) q hqst hqcid
          obtain ⟨hK1, hK2, hK3, hK4⟩ := ih (save_plugin st (WofEntry pdt store e₀))
            hRnd' hfinds' hids' hpres' hcid'
          have hK2R : ∀ q ∈ R'.foldl (forwardStep repoUrl pdt (findByClaudeId store))
              (save_plugin st (WofEntry pdt store e₀)),
              (q ∈ st ∧ ∀ e ∈ e₀ :: R', (parse_claude_plugin_id e.id).isSome = true →
                  q.id ≠ (QofEntry store e).id) ∨
              (∃ e ∈ e₀ :: R', (parse_claude_plugin_id e.id).isSome = true ∧
                  q = WofEntry pdt store e) := by
            intro q hq
            rcases hK2 q hq with ⟨hqst', hcond⟩ | ⟨e, he, hpe, heq⟩
            · rcases mem_save_plugin st _ q hqst' with rfl | ⟨hqst, hqid⟩
              · exact Or.inr ⟨e₀, List.mem_cons_self _ _, by rw [hp]; rfl, rfl⟩
              · refine Or.inl ⟨hqst, ?_⟩
                intro e he hpe
                rcases List.mem_cons.mp he with rfl | he'
                · rw [← hWid]
                  exact hqid
                · exact hcond e he' hpe
            · exact Or.inr ⟨e, List.mem_cons_of_mem _ he, hpe, heq⟩
          refine ⟨hK1, hK2R, ?_, ?_⟩
          · intro q hq hcond
            have hq' : q ∈ save_plugin st (WofEntry pdt store e₀) := by
              refine mem_save_plugin_of_ne st _ _ hq ?_
              rw [hWid]
              exact hcond e₀ (List.mem_cons_self _ _) (by rw [hp]; rfl)
            exact hK3 q hq' (fun e he hpe => hcond e (List.mem_cons_of_mem _ he) hpe)
          · intro e he
            rcases List.mem_cons.mp he with rfl | he'
            · constructor
              · refine hK3 (WofEntry pdt store e) (self_mem_save_plugin st _) ?_
                intro e' he' _
                rw [hWid]
                exact hQne e' he'
              · intro q hq hqcid
                rcases hK2R q hq with ⟨hqst, hcond⟩ | ⟨e', he', hpe', heq⟩
                · exfalso
                  have hqQ := hcid e (List.mem_cons_self _ _) q hqst hqcid
                  exact hcond e (List.mem_cons_self _ _) (by rw [hp]; rfl) (by rw [hqQ])
                · rcases List.mem_cons.mp he' with rfl | he''
                  · exact heq
                  · exfalso
                    have h1 := WofEntry_cid pdt store e' (hfinds' e' he'')
                    rw [heq, h1] at hqcid
                    exact hne0 e' he'' (Option.some.inj hqcid).symm
            · exact hK4 e he'

theorem forwardStep_newbase (repoUrl : String → String) (pdt : Option String → Option Int)
    (byId : String → Option Plugin) (st : List Plugin) (e : ClaudeInstalledPluginEntry)
    (pn mn : String)
    (hp : parse_claude_plugin_id e.id = some (pn, mn)) (hb : byId e.id = none) :
    forwardStep repoUrl pdt byId st e
      = save_plugin st (applyEntry pdt e pn mn
          { Plugin.new pn (repoUrl mn) mn "external" with
            discovery_source := some "claude_cli" }) := by
  unfold forwardStep
  rw [hp, hb]

theorem forwardStep_cases (repoUrl : String → String) (pdt : Option String → Option Int)
    (byId : String → Option Plugin) (st : List Plugin) (e : ClaudeInstalledPluginEntry) :
    forwardStep repoUrl pdt byId st e = st ∨
    ∃ w, forwardStep repoUrl pdt byId st e = save_plugin st w := by
  cases hp : parse_claude_plugin_id e.id with
  | none => exact Or.inl (forwardStep_none repoUrl pdt byId st e hp)
  | some pm =>
      obtain ⟨pn, mn⟩ := pm
      cases hb : byId e.id with
      | some q => exact Or.inr ⟨_, forwardStep_some repoUrl pdt byId st e pn mn q hp hb⟩
      | none => exact Or.inr ⟨_, forwardStep_newbase repoUrl pdt byId st e pn mn hp hb⟩

theorem foldl_forwardStep_ids (repoUrl : String → String) (pdt : Option String → Option Int)
    (byId : String → Option Plugin) :
    ∀ (listing : List ClaudeInstalledPluginEntry) (st : List Plugin),
      (∀ i ∈ st.map (fun p => p.id),
        i ∈ (listing.foldl (forwardStep repoUrl pdt byId) st).map (fun p => p.id)) ∧
      ((st.map (fun p => p.id)).Nodup →
        ((listing.foldl (forwardStep repoUrl pdt byId) st).map (fun p => p.id)).Nodup) := by
  intro listing
  induction listing with
  | nil => exact fun st => ⟨fun i hi => hi, fun h => h⟩
  | cons e es ih =>
      intro st
      rw [List.foldl_cons]
      rcases forwardStep_cases repoUrl pdt byId st e with h | ⟨w, h⟩
      · rw [h]
        exact ih st
      · rw [h]
        constructor
        · intro i hi
          exact (ih (save_plugin st w)).1 i (mem_ids_save_plugin st w i hi)
        · intro hndst
          exact (ih (save_plugin st w)).2 (save_plugin_nodup st w hndst)

theorem syncReverse_ids (ids : List String) (store : List Plugin)
    (hnd : (store.map (fun p => p.id)).Nodup) :
    (syncReverse ids store).map (fun p => p.id) = store.map (fun p => p.id) := by
  rw [syncReverse_eq_map ids store hnd, List.map_map]
  refine List.map_congr_left ?_
  intro q _
  by_cases hf : flipCond ids q = true
  · simp only [Function.comp_apply, if_pos hf]
    rfl
  · simp only [Function.comp_apply, if_neg hf]

theorem contains_false_of_not_mem {ids : List String} {cid : String}
    (h : cid ∉ ids) : ids.contains cid = false := by
  rw [← Bool.not_eq_true]
  intro hc
  exact h (List.elem_iff.mp hc)

/-- C8 (amended): over a persisted store with pairwise-distinct plugin
ids, `sync_claude_installed_state` (i) never deletes a record — every
stored id survives; (ii) flips every plugin that leaves the forward pass
marked installed under a `claude_id` absent from the CLI listing back to
not-installed, clearing all install metadata (`installed_at`,
`installed_version`, scope, enabled flag, install path, last-updated);
(iii) leaves no `claude_id`-bearing plugin of the final store both
installed and absent from the listing; and (iv) is idempotent whenever
the listing's ids are pairwise distinct, stored `claude_id`s are unique,
and every listed id matches some stored plugin's `claude_id`.  The
original claim is corrected: a plugin storing no `claude_id` is exempt
from reconciliation even when marked installed. -/
theorem claude_sync_reconciliation_amended (repoUrl : String → String)
    (pdt : Option String → Option Int) (store : List Plugin)
    (listing : List ClaudeInstalledPluginEntry)
    (hnd : (store.map (fun p => p.id)).Nodup) :
    (∀ i ∈ store.map (fun p => p.id),
        i ∈ (sync_claude_installed_state repoUrl pdt store listing).map (fun p => p.id)) ∧
    (∀ p ∈ syncForward repoUrl pdt store listing, ∀ cid, p.claude_id = some cid →
        p.installed = true → cid ∉ listing.map (fun e => e.id) →
        clearInstall p ∈ sync_claude_installed_state repoUrl pdt store listing ∧
        (clearInstall p).id = p.id ∧ (clearInstall p).claude_id = some cid ∧
        (clearInstall p).installed = false ∧ (clearInstall p).installed_at = none ∧
        (clearInstall p).installed_version = none ∧ (clearInstall p).claude_scope = none ∧
        (clearInstall p).claude_enabled = none ∧
        (clearInstall p).claude_install_path = none ∧
        (clearInstall p).claude_last_updated = none) ∧
    (∀ q ∈ sync_claude_installed_state repoUrl pdt store listing, ∀ cid,
        q.claude_id = some cid → cid ∉ listing.map (fun e => e.id) →
        q.installed = false) ∧
    ((listing.map (fun e => e.id)).Nodup →
      (∀ p ∈ store, ∀ q ∈ store, p.claude_id = q.claude_id → p.claude_id ≠ none → p = q) →
      (∀ e ∈ listing, (findByClaudeId store e.id).isSome = true) →
      sync_claude_installed_state repoUrl pdt
          (sync_claude_installed_state repoUrl pdt store listing) listing
        = sync_claude_installed_state repoUrl pdt store listing) := by
  have hFnd : ((syncForward repoUrl pdt store listing).map (fun p => p.id)).Nodup := by
    unfold syncForward
    exact (foldl_forwardStep_ids repoUrl pdt (findByClaudeId store) listing store).2 hnd
  have hS1map : sync_claude_installed_state repoUrl pdt store listing
      = (syncForward repoUrl pdt store listing).map
          (fun q => if flipCond (listing.map (fun e => e.id)) q = true
            then clearInstall q else q) := by
    show syncReverse (listing.map (fun e => e.id)) (syncForward repoUrl pdt store listing) = _
    exact syncReverse_eq_map _ _ hFnd
  refine ⟨?_, ?_, ?_, ?_⟩
  · intro i hi
    have h1 : i ∈ (syncForward repoUrl pdt store listing).map (fun p => p.id) := by
      unfold syncForward
      exact (foldl_forwardStep_ids repoUrl pdt (findByClaudeId store) listing store).1 i hi
    show i ∈ (syncReverse (listing.map (fun e => e.id))
        (syncForward repoUrl pdt store listing)).map (fun p => p.id)
    rw [syncReverse_ids _ _ hFnd]
    exact h1
  · intro p hpF cid hcid hinst hnotin
    have hflip : flipCond (listing.map (fun e => e.id)) p = true := by
      unfold flipCond
      rw [hcid, hinst]
      show (true && !((listing.map (fun e => e.id)).contains cid)) = true
      rw [contains_false_of_not_mem hnotin]
      rfl
    refine ⟨?_, rfl, hcid, rfl, rfl, rfl, rfl, rfl, rfl, rfl⟩
    rw [hS1map]
    exact List.mem_map.mpr ⟨p, hpF, by rw [if_pos hflip]⟩
  · intro q hq cid hcid hnotin
    rw [hS1map] at hq
    rcases List.mem_map.mp hq with ⟨p, hpF, rfl⟩
    by_cases hf : flipCond (listing.map (fun e => e.id)) p = true
    · rw [if_pos hf]
      rfl
    · rw [if_neg hf]
      rw [if_neg hf] at hcid
      have hflipval : flipCond (listing.map (fun e => e.id)) p
          = (p.installed && !((listing.map (fun e => e.id)).contains cid)) := by
        unfold flipCond
        rw [hcid]
      rw [contains_false_of_not_mem hnotin] at hflipval
      have hfalse : flipCond (listing.map (fun e => e.id)) p = false :=
        Bool.not_eq_true _ ▸ (Bool.eq_false_iff.mpr hf)
      rw [hfalse] at hflipval
      have := hflipval.symm
      rw [Bool.not_false, Bool.and_true] at this
      exact this
  · intro hlist huniq hfind
    have hcid0 : ∀ e ∈ listing, ∀ q ∈ store, q.claude_id = some e.id →
        q = QofEntry store e := by
      intro e he q hq hqcid
      have hQ := QofEntry_spec store e (hfind e he)
      exact huniq q hq (QofEntry store e) hQ.1 (by rw [hqcid, hQ.2])
        (by rw [hqcid]; exact fun h => Option.noConfusion h)
    obtain ⟨hK1, hK2, hK3, hK4⟩ := forwardFold_charact repoUrl pdt store hnd listing store
      hlist hfind rfl (fun e he => (QofEntry_spec store e (hfind e he)).1) hcid0
    have hFdef : syncForward repoUrl pdt store listing
        = listing.foldl (forwardStep repoUrl pdt (findByClaudeId store)) store := rfl
    rw [← hFdef] at hK1 hK2 hK3 hK4
    have hS1ids : (sync_claude_installed_state repoUrl pdt store listing).map
        (fun p => p.id) = store.map (fun p => p.id) := by
      show (syncReverse (listing.map (fun e => e.id))
          (syncForward repoUrl pdt store listing)).map (fun p => p.id) = _
      rw [syncReverse_ids _ _ hFnd]
      exact hK1
    have hS1nd : ((sync_claude_installed_state repoUrl pdt store listing).map
        (fun p => p.id)).Nodup := by
      rw [hS1ids]
      exact hnd
    have hWin : ∀ e ∈ listing,
        WofEntry pdt store e ∈ sync_claude_installed_state repoUrl pdt store listing ∧
        ∀ q ∈ sync_claude_installed_state repoUrl pdt store listing,
          q.claude_id = some e.id → q = WofEntry pdt store e := by
      intro e he
      have hW := hK4 e he
      have hflipW : flipCond (listing.map (fun e => e.id)) (WofEntry pdt store e)
          = false := by
        unfold flipCond
        rw [WofEntry_cid pdt store e (hfind e he)]
        have hc : (listing.map (fun e => e.id)).contains e.id = true :=
          List.elem_iff.mpr (List.mem_map.mpr ⟨e, he, rfl⟩)
        show ((WofEntry pdt store e).installed &&
            !((listing.map (fun e => e.id)).contains e.id)) = false
        rw [hc, Bool.not_true, Bool.and_false]
      constructor
      · rw [hS1map]
        refine List.mem_map.mpr ⟨WofEntry pdt store e, hW.1, ?_⟩
        rw [if_neg (fun hh => absurd (hflipW.symm.trans hh) Bool.false_ne_true)]
      · intro q hq hqcid
        rw [hS1map] at hq
        rcases List.mem_map.mp hq with ⟨p, hpF, rfl⟩
        have hpcid : p.claude_id = some e.id := by
          by_cases hf : flipCond (listing.map (fun e => e.id)) p = true
          · simp only [if_pos hf] at hqcid
            exact hqcid
          · simp only [if_neg hf] at hqcid
            exact hqcid
        have hpW : p = WofEntry pdt store e := hW.2 p hpF hpcid
        rw [hpW]
        rw [if_neg (fun hh => absurd (hflipW.symm.trans hh) Bool.false_ne_true)]
    have hF2 : syncForward repoUrl pdt
        (sync_claude_installed_state repoUrl pdt store listing) listing
        = sync_claude_installed_state repoUrl pdt store listing := by
      unfold syncForward
      refine foldl_id_of_fixed _ _ listing ?_
      intro e he
      cases hp : parse_claude_plugin_id e.id with
      | none => exact forwardStep_none _ _ _ _ e hp
      | some pm =>
          obtain ⟨pn, mn⟩ := pm
          have hWe := hWin e he
          have hb2 : findByClaudeId (sync_claude_installed_state repoUrl pdt store listing)
              e.id = some (WofEntry pdt store e) :=
            findByClaudeId_eq_of_unique _ e.id _ hWe.1
              (WofEntry_cid pdt store e (hfind e he)) hWe.2
          rw [forwardStep_some repoUrl pdt _ _ e pn mn _ hp hb2]
          have hidem : applyEntry pdt e pn mn (WofEntry pdt store e)
              = WofEntry pdt store e := by
            rw [WofEntry_some pdt store e pn mn hp]
            exact applyEntry_idem pdt e pn mn _
          rw [hidem]
          exact save_plugin_self _ _ hS1nd hWe.1
    have hR2 : syncReverse (listing.map (fun e => e.id))
        (sync_claude_installed_state repoUrl pdt store listing)
        = sync_claude_installed_state repoUrl pdt store listing := by
      unfold syncReverse
      refine foldl_id_of_fixed _ _ _ ?_
      intro p hp
      have hflipp : flipCond (listing.map (fun e => e.id)) p = false := by
        rw [hS1map] at hp
        rcases List.mem_map.mp hp with ⟨r, _, rfl⟩
        exact flipCond_image _ r
      unfold reverseStep
      rw [if_neg (fun hh => absurd (hflipp.symm.trans hh) Bool.false_ne_true)]
    show syncReverse (listing.map (fun e => e.id))
        (syncForward repoUrl pdt
          (sync_claude_installed_state repoUrl pdt store listing) listing)
      = sync_claude_installed_state repoUrl pdt store listing
    rw [hF2]
    exact hR2

/-- A stale installed plugin: in the store, marked installed under a
`claude_id` absent from the CLI listing. -/
def c8pa : Plugin :=
  { Plugin.new "a" "local" "m" "external" with
    installed := true
    installed_at := some 3
    installed_version := some "1" }

/-- A stored plugin whose `claude_id` matches the CLI listing entry. -/
def c8pb : Plugin := Plugin.new "b" "local" "m" "external"

/-- The concrete store for the C8 witness. -/
def c8store : List Plugin := [c8pa, c8pb]

/-- The CLI listing row matching `c8pb`. -/
def c8entry : ClaudeInstalledPluginEntry :=
  { id := "b@m"
    version := some "2"
    scope := some "user"
    enabled := some true
    install_path := some "/x"
    installed_at := some "t1"
    last_updated := some "t2" }

/-- The concrete listing for the C8 witness. -/
def c8listing : List ClaudeInstalledPluginEntry := [c8entry]

/-- Witness for `claude_sync_reconciliation_amended` at a concrete
two-plugin store and one-entry listing: the stale installed plugin is
flipped, and the sync is idempotent. -/
theorem claude_sync_reconciliation_amended_witness :
    clearInstall c8pa
        ∈ sync_claude_installed_state (fun _ => "local") (fun _ => none) c8store c8listing ∧
    sync_claude_installed_state (fun _ => "local") (fun _ => none)
        (sync_claude_installed_state (fun _ => "local") (fun _ => none) c8store c8listing)
        c8listing
      = sync_claude_installed_state (fun _ => "local") (fun _ => none) c8store c8listing := by
  refine ⟨?_, ?_⟩
  · exact ((claude_sync_reconciliation_amended (fun _ => "local") (fun _ => none) c8store
      c8listing (by decide)).2.1 c8pa (by decide) "a@m" (by decide) (by decide)
      (by decide)).1
  · exact (claude_sync_reconciliation_amended (fun _ => "local") (fun _ => none) c8store
      c8listing (by decide)).2.2.2 (by decide) (by decide) (by decide)

/-- Modelled from the spec: the `Debug` rendering of an issue severity
(the Rust variant name). -/
def IssueSeverity.debugStr : IssueSeverity → String
  | .critical => "Critical"
  | .error => "Error"
  | .warning => "Warning"
  | .info => "Info"

/-- Modelled from the spec: `SecurityLevel::as_str`, the lower-case level
name. -/
def SecurityLevel.as_str : SecurityLevel → String
  | .safe => "safe"
  | .low => "low"
  | .medium => "medium"
  | .high => "high"
  | .critical => "critical"

/-- `plugin_manager.rs::prepare_plugin_installation`'s issue formatting:
`"[{file}] {severity:?}: {description}"`, with the file prefix omitted
when the issue names no path. -/
def format_security_issue (i : SecurityIssue) : String :=
  (match i.file_path with
    | some f => "[" ++ f ++ "] "
    | none => "") ++ i.severity.debugStr ++ ": " ++ i.description

/-- `plugin_manager.rs::prepare_plugin_installation`'s per-plugin persist
step: record the report summary and the staging path, and mark a
not-yet-installed plugin of a blocked batch with
`install_status = "blocked"` (`blocked` is the merged report's flag). -/
def prepare_persist_plugin (now : Int) (repo_root : String) (blocked : Bool)
    (p : Plugin) (report : SecurityReport) : Plugin :=
  { p with
    security_score := some report.score
    security_level := some report.level.as_str
    security_issues := some (report.issues.map format_security_issue)
    scanned_at := some now
    staging_path := some repo_root
    install_status := if blocked && !p.installed then some "blocked"
      else p.install_status }

/-- `plugin_manager.rs::sync_featured_marketplaces`'s carry of a
previously persisted `install_status` onto the refreshed record:
`"unsupported"` is dropped, any other stored value (in particular
`"blocked"`) is carried over. -/
def featured_status_carry (existing : Option String) : Option String :=
  match existing with
  | some s => if s = "unsupported" then none else some s
  | none => none

/-- C9: the prepare-installation persist step stamps every
not-yet-installed plugin of a blocked batch with
`install_status = "blocked"`; a non-blocked persist leaves the previous
status untouched (so the stamp survives until a later write supersedes
it, and a passing scan removes the obligation rather than the field);
the featured-marketplace refresh carries `"blocked"` over and drops only
`"unsupported"`. -/
theorem blocked_status_invariant (now : Int) (repo_root : String) (blocked : Bool)
    (p : Plugin) (report : SecurityReport) :
    (blocked = true → p.installed = false →
      (prepare_persist_plugin now repo_root blocked p report).install_status
        = some "blocked") ∧
    (blocked = false →
      (prepare_persist_plugin now repo_root blocked p report).install_status
        = p.install_status) ∧
    (prepare_persist_plugin now repo_root blocked p report).installed = p.installed ∧
    featured_status_carry (some "blocked") = some "blocked" ∧
    featured_status_carry (some "unsupported") = none ∧
    featured_status_carry none = none := by
  refine ⟨?_, ?_, rfl, rfl, rfl, rfl⟩
  · intro hb hi
    show (if blocked && !p.installed then some "blocked" else p.install_status)
      = some "blocked"
    rw [hb, hi]
    rfl
  · intro hb
    show (if blocked && !p.installed then some "blocked" else p.install_status)
      = p.install_status
    rw [hb]
    rfl

/-- Witness for `blocked_status_invariant` at a concrete plugin and
report. -/
theorem blocked_status_invariant_witness :
    (prepare_persist_plugin 0 "root" true (basePlugin "p") c7report1).install_status
        = some "blocked" ∧
    (prepare_persist_plugin 0 "root" false c8pa c7report1).install_status
        = c8pa.install_status :=
  ⟨(blocked_status_invariant 0 "root" true (basePlugin "p") c7report1).1 rfl rfl,
   (blocked_status_invariant 0 "root" false c8pa c7report1).2.1 rfl⟩
